import Mathlib

/-!
Verification of the jobrunner job store core: a shallow embedding of the
job domain model (`src/jobrunner/domain/job.py`), the SQLite-backed
repository (`src/jobrunner/repository/sqlite_repository.py`), the job
service lifecycle operations (`src/jobrunner/service_layer/job_service.py`),
the legacy adapter creation path (`src/jobrunner/db/repository_adapter.py`),
the main-flow dependency engine (`src/jobrunner/main.py` /
`src/jobrunner/info.py`), and the sequence recorder
(`src/jobrunner/sequences.py`), together with theorems settling the
specification claims about them.

Modelling conventions: timestamps are abstract `Nat` ticks (the code only
tests them for presence, never their value); the SQLite tables are lists of
rows with the operations translated statement-by-statement; every commit
boundary in the Python code corresponds to a state value in the model.
-/

namespace Jobrunner

/-- Job lifecycle states, from `JobStatus` in `src/jobrunner/domain/job.py`. -/
inductive JobStatus where
  | pending
  | blocked
  | running
  | completed
deriving DecidableEq, Repr

/-- The job record, from the `Job` dataclass in `src/jobrunner/domain/job.py`.
Context fields that no verified property reads (`workspace`, `project`,
`host`, `user`, `env`, `pwd`, `logfile`, `persist_key`) are omitted; all
remaining fields follow the source, with datetimes as abstract `Nat` ticks. -/
structure Job where
  key : String
  uidx : Nat
  prog : Option String := none
  args : Option (List String) := none
  cmd : Option (List String) := none
  reminder : Option String := none
  create_time : Nat := 0
  start_time : Option Nat := none
  stop_time : Option Nat := none
  status : JobStatus := JobStatus.pending
  rc : Option Int := none
  pid : Option Nat := none
  blocked : Bool := false
  depends_on : List String := []
  all_deps : List String := []
  auto_job : Bool := false
  mail_job : Bool := false
  isolate : Bool := false
  persist_key_generated : Option String := none
deriving DecidableEq, Repr

/-- `Job.is_active`: a job is active while not completed. -/
def isActive (j : Job) : Bool :=
  j.status ≠ JobStatus.completed

/-- Store-wide metadata, from `Metadata` in
`src/jobrunner/repository/interface.py`.  The `current_index` counter row of
the SQLite `metadata` table is kept in `RepoState` (it is not part of the
`Metadata` dataclass in the source either). -/
structure Metadata where
  schema_version : String := "3"
  last_key : String := ""
  last_job : String := ""
  checkpoint : Option Nat := none
  recent_keys : List String := []
deriving DecidableEq, Repr

/-- One row of the `sequence_steps` table (the `created_at` column is an
uninterpreted timestamp and is omitted). -/
structure SeqStep where
  name : String
  step_number : Nat
  job_key : String
deriving DecidableEq, Repr

/-- One row of the `sequence_dependencies` table. -/
structure SeqDep where
  name : String
  step_number : Nat
  dependency_step : Nat
  dependency_type : String
deriving DecidableEq, Repr

/-- The persistent state of `SqliteJobRepository`: the `jobs` table as an
association list keyed by the `key` primary key, the `metadata` singleton
row set (with the `current_index` counter split out, freshly initialised to
0 by `_init_metadata`), and the two sequence tables. -/
structure RepoState where
  jobs : List (String × Job) := []
  meta : Metadata := {}
  current_index : Nat := 0
  seq_steps : List SeqStep := []
  seq_deps : List SeqDep := []
deriving DecidableEq, Repr

/-- `SqliteJobRepository.get`: point lookup by primary key. -/
def repoGet (s : RepoState) (k : String) : Option Job :=
  s.jobs.lookup k

/-- `SqliteJobRepository.exists`: existence check by primary key. -/
def repoExists (s : RepoState) (k : String) : Bool :=
  (repoGet s k).isSome

/-- `INSERT OR REPLACE` into the `jobs` table: replace the row with the same
primary key if present, otherwise append. -/
def jobsInsert (rows : List (String × Job)) (k : String) (j : Job) :
    List (String × Job) :=
  if (rows.lookup k).isSome then
    rows.map (fun p => if p.1 = k then (k, j) else p)
  else
    rows ++ [(k, j)]

/-- `SqliteJobRepository._add_to_recent`: move-to-front insertion into the
`recent_keys` list, trimmed to 100 entries. -/
def addToRecent (s : RepoState) (k : String) : RepoState :=
  let recent0 := s.meta.recent_keys.erase k
  let recent1 := k :: recent0
  let recent2 := if recent1.length > 100 then recent1.take 100 else recent1
  { s with meta := { s.meta with recent_keys := recent2 } }

/-- `SqliteJobRepository._remove_from_recent`: drop a key from
`recent_keys` (the metadata row is only rewritten when the key was
present). -/
def removeFromRecent (s : RepoState) (k : String) : RepoState :=
  if k ∈ s.meta.recent_keys then
    { s with meta := { s.meta with recent_keys := s.meta.recent_keys.erase k } }
  else
    s

/-- `SqliteJobRepository.save`: upsert the row, then record the key in
`recent_keys` when the saved job is completed and not an auto job. -/
def repoSave (s : RepoState) (j : Job) : RepoState :=
  let s1 := { s with jobs := jobsInsert s.jobs j.key j }
  if j.status = JobStatus.completed ∧ j.auto_job = false then
    addToRecent s1 j.key
  else
    s1

/-- `SqliteJobRepository.delete`: delete the row by key, then remove the key
from `recent_keys`. -/
def repoDelete (s : RepoState) (k : String) : RepoState :=
  removeFromRecent { s with jobs := s.jobs.filter (fun p => p.1 ≠ k) } k

/-- `SqliteJobRepository.next_uidx`: read the `current_index` counter
(0 on a fresh store), persist the incremented counter (the source commits
before returning), and return the old value. -/
def nextUidx (s : RepoState) : Nat × RepoState :=
  (s.current_index, { s with current_index := s.current_index + 1 })

/-- Iterated `next_uidx`, collecting the returned values in call order. -/
def nextUidxN (s : RepoState) : Nat → List Nat × RepoState
  | 0 => ([], s)
  | n + 1 =>
    let (v, s1) := nextUidx s
    let (vs, s2) := nextUidxN s1 n
    (v :: vs, s2)

/-- What `nextUidxN` returns: the run of counter values starting at the
stored counter. -/
theorem nextUidxN_eq (s : RepoState) (n : Nat) :
    (nextUidxN s n).1 = (List.range n).map (fun i => s.current_index + i) ∧
      (nextUidxN s n).2 = { s with current_index := s.current_index + n } := by
  induction n generalizing s with
  | zero => simp [nextUidxN]
  | succ m ih =>
    have h := ih { s with current_index := s.current_index + 1 }
    constructor
    · simp only [nextUidxN, nextUidx, h.1, List.range_succ_eq_map, List.map_cons,
        List.map_map]
      congr 1
      apply List.map_congr_left
      intro a _
      simp only [Function.comp_apply]
      omega
    · simp only [nextUidxN, nextUidx, h.2]
      congr 1
      omega

/-- A fresh store, as `_init_schema`/`_init_metadata` create it: no job
rows, default metadata, `current_index` 0, no sequence rows.  Because
`next_uidx` commits the incremented counter before returning, the model
state is always the persisted state, so closing and reopening the
repository is the identity on it. -/
def freshRepo : RepoState := {}

/-- C3: `next_uidx` called N times on a fresh store returns the strictly
increasing values 0, 1, ..., N-1 (in particular no value twice); the
incremented counter is persisted when each call returns, so after reopening
the repository the next call returns N. -/
theorem nextUidx_returns_range_and_is_durable (N : Nat) :
    (nextUidxN freshRepo N).1 = List.range N ∧
      List.Pairwise (· < ·) (nextUidxN freshRepo N).1 ∧
      (nextUidxN freshRepo N).2.current_index = N ∧
      (nextUidx (nextUidxN freshRepo N).2).1 = N := by
  have h := nextUidxN_eq freshRepo N
  have hval : (nextUidxN freshRepo N).1 = List.range N := by
    rw [h.1]
    simp [freshRepo, List.map_id]
  refine ⟨hval, ?_, ?_, ?_⟩
  · rw [hval]
    exact List.pairwise_lt_range N
  · rw [h.2]
    simp [freshRepo]
  · rw [nextUidx, h.2]
    simp [freshRepo]

/-! ## Job service lifecycle operations
(`JobService` in `src/jobrunner/service_layer/job_service.py`).  Every
operation is one locked critical section: read, modify, persist.  The
`ValueError` raises are modelled with `Except.error`. -/

/-- `utils.keyEscape`: keep ASCII letters, digits, underscore and hash,
replace every other character with a plus sign. -/
def keyEscape (s : String) : String :=
  s.map (fun c =>
    if c.isAlpha || c.isDigit || c = '_' || c = '#' then c else '+')

/-- The auto-generated key of `JobService.create_job`:
timestamp, uidx, underscore, escaped program or reminder text. -/
def genAutoKey (now uidx : Nat) (src : String) : String :=
  toString now ++ toString uidx ++ "_" ++ keyEscape src

/-- Python truthiness of the optional `key` argument: `None` and the empty
string both count as "no explicit key". -/
def keyTruthy (key? : Option String) : Option String :=
  match key? with
  | some k => if k = "" then none else some k
  | none => none

/-- Python truthiness of the optional `cmd` argument: `None` and the empty
list both count as "no command". -/
def cmdTruthy (cmd : Option (List String)) : Option (List String) :=
  match cmd with
  | some c => if c = [] then none else some c
  | none => none

/-- The key-conflict test of `JobService.create_job` (lines 106-111):
an explicit key conflicts when it exists in the store and the existing job
is still active. -/
def createConflict (s : RepoState) (keyArg : Option String) : Bool :=
  match keyArg with
  | some k =>
    repoExists s k &&
      (match repoGet s k with
       | some j => isActive j
       | none => false)
  | none => false

/-- The Pending job built by `JobService.create_job`. -/
def newJobRecord (now pid uidx : Nat) (cmdArg : Option (List String))
    (reminder : Option String) (isolate auto_job : Bool) (key : String) :
    Job := {
  key := key
  uidx := uidx
  prog := match cmdArg with
    | some c => c.head?
    | none => none
  args := match cmdArg with
    | some c => if 1 < c.length then some c.tail else none
    | none => none
  cmd := match cmdArg with
    | some c => some c
    | none => some ["(reminder)"]
  reminder := reminder
  create_time := now
  status := JobStatus.pending
  isolate := isolate
  auto_job := auto_job
  pid := some pid
  persist_key_generated := some key }

/-- `JobService.create_job`.  `cmd`/`key?` follow Python truthiness: an
empty command list counts as no command and an empty-string key as no key.
Raises on a key conflict with an existing active job; otherwise allocates a
uidx, builds the Pending job, persists it, and records it as the last
user-created job unless it is an auto job. -/
def createJob (s : RepoState) (now pid : Nat) (cmd : Option (List String))
    (reminder : Option String) (isolate auto_job : Bool)
    (key? : Option String) : Except String (Job × RepoState) :=
  if createConflict s (keyTruthy key?) then
    Except.error "Active key conflict"
  else
    let (uidx, s1) := nextUidx s
    let key := match keyTruthy key? with
      | some k => k
      | none =>
        genAutoKey now uidx (match cmdTruthy cmd with
          | some c => c.headD ""
          | none => reminder.getD "")
    let job := newJobRecord now pid uidx (cmdTruthy cmd) reminder isolate
      auto_job key
    let s2 := repoSave s1 job
    let s3 :=
      if auto_job then s2
      else { s2 with meta := { s2.meta with last_job := key } }
    Except.ok (job, s3)

/-- `JobService.start_job`: mark Running, set `start_time` and `pid`,
persist, and update the `last_key` metadata. -/
def startJob (s : RepoState) (k : String) (pid now : Nat) :
    Except String (Job × RepoState) :=
  match repoGet s k with
  | none => Except.error ("Job " ++ k ++ " not found")
  | some job0 =>
    let job := { job0 with
      status := JobStatus.running
      start_time := some now
      pid := some pid }
    let s1 := repoSave s job
    let s2 := { s1 with meta := { s1.meta with last_key := k } }
    Except.ok (job, s2)

/-- `JobService.complete_job`: mark Completed, set `stop_time` and `rc`,
clear `pid`, persist. -/
def completeJob (s : RepoState) (k : String) (rc : Int) (now : Nat) :
    Except String (Job × RepoState) :=
  match repoGet s k with
  | none => Except.error ("Job " ++ k ++ " not found")
  | some job0 =>
    let job := { job0 with
      status := JobStatus.completed
      stop_time := some now
      rc := some rc
      pid := none }
    Except.ok (job, repoSave s job)

/-- `JobService.block_job`: set the blocked flag and the Blocked status,
persist. -/
def blockJob (s : RepoState) (k : String) : Except String (Job × RepoState) :=
  match repoGet s k with
  | none => Except.error ("Job " ++ k ++ " not found")
  | some job0 =>
    let job := { job0 with
      blocked := true
      status := JobStatus.blocked }
    Except.ok (job, repoSave s job)

/-- `JobService.unblock_job`: clear the blocked flag, revert a Blocked
status to Pending, persist. -/
def unblockJob (s : RepoState) (k : String) :
    Except String (Job × RepoState) :=
  match repoGet s k with
  | none => Except.error ("Job " ++ k ++ " not found")
  | some job0 =>
    let job := { job0 with
      blocked := false
      status := if job0.status = JobStatus.blocked then JobStatus.pending
        else job0.status }
    Except.ok (job, repoSave s job)

/-- `JobService.set_dependencies`: store the dependency list and mirror it
into `all_deps` (a set in the source, modelled as a deduplicated list),
persist. -/
def setDependencies (s : RepoState) (k : String) (deps : List String) :
    Except String (Job × RepoState) :=
  match repoGet s k with
  | none => Except.error ("Job " ++ k ++ " not found")
  | some job0 =>
    let job := { job0 with
      depends_on := deps
      all_deps := deps.dedup }
    Except.ok (job, repoSave s job)

/-! ## C1: the stop-time / rc / Completed biconditional -/

/-- The per-job invariant of §8 of the spec: `stop_time` and `rc` are
non-null exactly when the job is Completed. -/
def invJob (j : Job) : Prop :=
  (j.stop_time ≠ none ↔ j.status = JobStatus.completed) ∧
    (j.rc ≠ none ↔ j.status = JobStatus.completed)

instance (j : Job) : Decidable (invJob j) := by
  unfold invJob
  infer_instance

/-- The store-wide invariant: every stored job row satisfies `invJob`. -/
def invStore (s : RepoState) : Prop :=
  ∀ p ∈ s.jobs, invJob p.2

instance (s : RepoState) : Decidable (invStore s) := by
  unfold invStore
  infer_instance

theorem lookup_mem_jobs {l : List (String × Job)} {k : String} {j : Job}
    (h : l.lookup k = some j) : (k, j) ∈ l := by
  induction l with
  | nil => simp [List.lookup] at h
  | cons p t ih =>
    rw [List.lookup] at h
    by_cases hk : k = p.1
    · subst hk
      simp at h
      subst h
      exact List.mem_cons_self _ _
    · have : (k == p.1) = false := beq_false_of_ne hk
      rw [this] at h
      exact List.mem_cons_of_mem _ (ih h)

theorem invStore_jobsInsert {s : RepoState} {j : Job}
    (hs : invStore s) (hj : invJob j) (k : String) :
    ∀ p ∈ jobsInsert s.jobs k j, invJob p.2 := by
  intro p hp
  unfold jobsInsert at hp
  split at hp
  · rcases List.mem_map.mp hp with ⟨q, hq, hpq⟩
    by_cases hqk : q.1 = k
    · simp [hqk] at hpq
      rw [← hpq]
      exact hj
    · simp [hqk] at hpq
      rw [← hpq]
      exact hs q hq
  · rcases List.mem_append.mp hp with hq | hq
    · exact hs p hq
    · simp at hq
      rw [hq]
      exact hj

theorem invStore_repoSave {s : RepoState} {j : Job}
    (hs : invStore s) (hj : invJob j) : invStore (repoSave s j) := by
  unfold repoSave
  split
  · intro p hp
    exact invStore_jobsInsert hs hj j.key p hp
  · intro p hp
    exact invStore_jobsInsert hs hj j.key p hp

theorem invJob_of_get {s : RepoState} {k : String} {j : Job}
    (hs : invStore s) (h : repoGet s k = some j) : invJob j :=
  hs (k, j) (lookup_mem_jobs h)

/-- C1: for every job stored by the service, `stop_time != null` iff the
job is Completed and `rc != null` iff the job is Completed, and this store
invariant is preserved by every lifecycle operation — `create_job`
unconditionally, `start_job` and `block_job` for lifecycle-legal calls
(their target is still active; Completed is terminal, so the state machine
never starts or blocks a completed job), `unblock_job` and `complete_job`
unconditionally. -/
theorem lifecycle_preserves_stop_rc_completed_iff
    (s : RepoState) (hs : invStore s) :
    (∀ now pid cmd rem iso auto key? j s1,
      createJob s now pid cmd rem iso auto key? = Except.ok (j, s1) →
        invStore s1) ∧
    (∀ k pid now j0 j s1, repoGet s k = some j0 → isActive j0 = true →
      startJob s k pid now = Except.ok (j, s1) → invStore s1) ∧
    (∀ k j0 j s1, repoGet s k = some j0 → isActive j0 = true →
      blockJob s k = Except.ok (j, s1) → invStore s1) ∧
    (∀ k j s1, unblockJob s k = Except.ok (j, s1) → invStore s1) ∧
    (∀ k rc now j s1, completeJob s k rc now = Except.ok (j, s1) →
      invStore s1) := by
  refine ⟨?_, ?_, ?_, ?_, ?_⟩
  · intro now pid cmd rem iso auto key? j s1 h
    rw [createJob] at h
    split at h
    · exact absurd h (by simp)
    · dsimp only [nextUidx] at h
      simp only [Except.ok.injEq, Prod.mk.injEq] at h
      have hnew : ∀ uidx cmdArg key,
          invJob (newJobRecord now pid uidx cmdArg rem iso auto key) := by
        intro uidx cmdArg key
        constructor <;> simp [newJobRecord]
      rw [← h.2]
      split
      · exact invStore_repoSave (fun p hp => hs p hp) (hnew _ _ _)
      · intro p hp
        exact invStore_repoSave (fun q hq => hs q hq) (hnew _ _ _) p hp
  · intro k pid now j0 j s1 hget hact h
    unfold startJob at h
    rw [hget] at h
    simp only [Except.ok.injEq, Prod.mk.injEq] at h
    have hj0 := invJob_of_get hs hget
    have hj0c : j0.status ≠ JobStatus.completed := by
      simpa [isActive] using hact
    have hstop : j0.stop_time = none := by
      by_contra hst
      exact hj0c (hj0.1.mp hst)
    have hrc0 : j0.rc = none := by
      by_contra hrc
      exact hj0c (hj0.2.mp hrc)
    have hnew : invJob { j0 with
        status := JobStatus.running
        start_time := some now
        pid := some pid } := by
      constructor <;> simp [hstop, hrc0]
    rw [← h.2]
    exact invStore_repoSave hs hnew
  · intro k j0 j s1 hget hact h
    unfold blockJob at h
    rw [hget] at h
    simp only [Except.ok.injEq, Prod.mk.injEq] at h
    have hj0 := invJob_of_get hs hget
    have hj0c : j0.status ≠ JobStatus.completed := by
      simpa [isActive] using hact
    have hstop : j0.stop_time = none := by
      by_contra hst
      exact hj0c (hj0.1.mp hst)
    have hrc0 : j0.rc = none := by
      by_contra hrc
      exact hj0c (hj0.2.mp hrc)
    have hnew : invJob { j0 with
        blocked := true
        status := JobStatus.blocked } := by
      constructor <;> simp [hstop, hrc0]
    rw [← h.2]
    exact invStore_repoSave hs hnew
  · intro k j s1 h
    unfold unblockJob at h
    cases hget : repoGet s k with
    | none => rw [hget] at h; exact absurd h (by simp)
    | some j0 =>
      rw [hget] at h
      simp only [Except.ok.injEq, Prod.mk.injEq] at h
      have hj0 := invJob_of_get hs hget
      have hnew : invJob { j0 with
          blocked := false
          status := if j0.status = JobStatus.blocked then JobStatus.pending
            else j0.status } := by
        by_cases hb : j0.status = JobStatus.blocked
        · constructor
          · simp only [hb, if_pos]
            simpa [hb] using hj0.1
          · simp only [hb, if_pos]
            simpa [hb] using hj0.2
        · constructor
          · simp only [if_neg hb]
            exact hj0.1
          · simp only [if_neg hb]
            exact hj0.2
      rw [← h.2]
      exact invStore_repoSave hs hnew
  · intro k rc now j s1 h
    unfold completeJob at h
    cases hget : repoGet s k with
    | none => rw [hget] at h; exact absurd h (by simp)
    | some j0 =>
      rw [hget] at h
      simp only [Except.ok.injEq, Prod.mk.injEq] at h
      have hnew : invJob { j0 with
          status := JobStatus.completed
          stop_time := some now
          rc := some rc
          pid := none } := by
        constructor <;> simp
      rw [← h.2]
      exact invStore_repoSave hs hnew

/-- A little populated store used to instantiate theorems: one pending job
"p" and one completed job "c". -/
def demoStore : RepoState :=
  { jobs := [
      ("p", { key := "p", uidx := 0 }),
      ("c", { key := "c", uidx := 1, stop_time := some 5,
              status := JobStatus.completed, rc := some 0 })],
    meta := { recent_keys := ["c"] },
    current_index := 2 }

/-- Witness for C1 at `demoStore`, whose invariant holds by computation. -/
theorem lifecycle_preserves_stop_rc_completed_iff_witness :
    invStore demoStore ∧
      ((∀ now pid cmd rem iso auto key? j s1,
        createJob demoStore now pid cmd rem iso auto key? =
            Except.ok (j, s1) → invStore s1) ∧
      (∀ k pid now j0 j s1, repoGet demoStore k = some j0 →
        isActive j0 = true →
        startJob demoStore k pid now = Except.ok (j, s1) → invStore s1) ∧
      (∀ k j0 j s1, repoGet demoStore k = some j0 → isActive j0 = true →
        blockJob demoStore k = Except.ok (j, s1) → invStore s1) ∧
      (∀ k j s1, unblockJob demoStore k = Except.ok (j, s1) →
        invStore s1) ∧
      (∀ k rc now j s1, completeJob demoStore k rc now = Except.ok (j, s1) →
        invStore s1)) :=
  ⟨by decide, lifecycle_preserves_stop_rc_completed_iff demoStore (by decide)⟩

/-! ## C2: explicit-key conflicts on creation

Two creation paths exist.  `JobService.create_job` (modelled above as
`createJob`) conflicts only when the explicit key names a still-active job.
`RepositoryAdapter.new` (`src/jobrunner/db/repository_adapter.py`, lines
262-295) guards with `if key and self._repo.exists(key)` — mere existence,
completed jobs included — although its own error message reads "Active key
conflict" and both the legacy `JobsBase.new` (`key in self.active.db`) and
the new service check activity. -/

/-- `RepositoryAdapter.new`: raise whenever the explicit key exists at all;
otherwise allocate a uidx and (for non-auto jobs) record the key as
`last_job`.  The `JobInfo` it builds is not persisted by `new` itself, so
only the key and the repository-state effects are modelled; `src` is the
program-or-reminder text the generated key is derived from. -/
def adapterNew (s : RepoState) (now : Nat) (src : String) (autoJob : Bool)
    (key? : Option String) : Except String (String × RepoState) :=
  if (match keyTruthy key? with
      | some k => repoExists s k
      | none => false) then
    Except.error "Active key conflict"
  else
    let (uidx, s1) := nextUidx s
    let key := match keyTruthy key? with
      | some k => k
      | none => genAutoKey now uidx src
    let s2 :=
      if autoJob then s1
      else { s1 with meta := { s1.meta with last_job := key } }
    Except.ok (key, s2)

theorem createConflict_iff (s : RepoState) (k : String) :
    createConflict s (keyTruthy (some k)) = true ↔
      k ≠ "" ∧ ∃ j, repoGet s k = some j ∧ isActive j = true := by
  by_cases hk : k = ""
  · simp [keyTruthy, createConflict, hk]
  · simp only [keyTruthy, if_neg hk]
    unfold createConflict repoExists
    cases hget : repoGet s k with
    | none => simp [hk, hget]
    | some j => simp [hk, hget]

/-- C2, stated of `JobService.create_job`, which it holds of: creation with
an explicit key fails with a conflict error exactly when the key names an
active job; a key naming only a completed job is accepted; creation with no
explicit key never raises a conflict.  `RepositoryAdapter.new` violates
this: at the failing input — the demo store, whose job under key "c" is
completed — it raises the conflict error that `create_job` (correctly, per
the spec and the legacy `JobsBase.new`) does not. -/
theorem createJob_conflict_iff_active_adapterNew_rejects_completed :
    (∀ s now pid cmd rem iso auto k,
      (∃ e, createJob s now pid cmd rem iso auto (some k) =
          Except.error e) ↔
        k ≠ "" ∧ ∃ j, repoGet s k = some j ∧ isActive j = true) ∧
    (∀ s now pid cmd rem iso auto,
      ∃ r, createJob s now pid cmd rem iso auto none = Except.ok r) ∧
    (∃ j, repoGet demoStore "c" = some j ∧ isActive j = false) ∧
    (∃ r, createJob demoStore 9 1 (some ["x"]) none false false (some "c") =
      Except.ok r) ∧
    (∃ e, adapterNew demoStore 9 "x" false (some "c") = Except.error e) := by
  refine ⟨?_, ?_, ?_, ?_, ?_⟩
  · intro s now pid cmd rem iso auto k
    constructor
    · rintro ⟨e, he⟩
      rw [createJob] at he
      split at he
      · exact (createConflict_iff s k).mp (by assumption)
      · exact absurd he (by simp)
    · intro hcond
      exact ⟨"Active key conflict",
        by rw [createJob, if_pos ((createConflict_iff s k).mpr hcond)]⟩
  · intro s now pid cmd rem iso auto
    exact ⟨_, rfl⟩
  · exact ⟨_, rfl, by decide⟩
  · exact ⟨_, rfl⟩
  · exact ⟨_, rfl⟩

/-- Witness for C2: applying the biconditional at the demo store's active
job "p" produces the concrete conflict error. -/
theorem createJob_conflict_iff_active_witness :
    ∃ e, createJob demoStore 9 1 (some ["x"]) none false false (some "p") =
      Except.error e :=
  (createJob_conflict_iff_active_adapterNew_rejects_completed.1
      demoStore 9 1 (some ["x"]) none false false "p").mpr
    ⟨by decide, ⟨_, rfl, by decide⟩⟩

/-! ## C7: unblocking a blocked job -/

theorem lookup_jobsInsert (rows : List (String × Job)) (k : String) (j : Job) :
    (jobsInsert rows k j).lookup k = some j := by
  induction rows with
  | nil => simp [jobsInsert, List.lookup]
  | cons p t ih =>
    unfold jobsInsert at ih ⊢
    by_cases hk : k = p.1
    · have hsome : (List.lookup k (p :: t)).isSome = true := by
        simp [List.lookup, hk]
      rw [if_pos hsome]
      simp only [List.map_cons]
      rw [if_pos hk.symm, List.lookup]
      simp
    · have hbeq : (k == p.1) = false := beq_false_of_ne hk
      have hlk : List.lookup k (p :: t) = List.lookup k t := by
        rw [List.lookup, hbeq]
      have hpk : ¬ p.1 = k := fun h => hk h.symm
      by_cases hsome : (List.lookup k (p :: t)).isSome = true
      · rw [if_pos hsome]
        have htsome : (List.lookup k t).isSome = true := by
          rw [← hlk]; exact hsome
        rw [if_pos htsome] at ih
        simp only [List.map_cons, if_neg hpk]
        rw [List.lookup, hbeq]
        exact ih
      · rw [if_neg hsome]
        have htnone : ¬ (List.lookup k t).isSome = true := by
          rw [← hlk]; exact hsome
        rw [if_neg htnone] at ih
        rw [List.cons_append, List.lookup, hbeq]
        exact ih

theorem repoGet_repoSave (s : RepoState) (j : Job) :
    repoGet (repoSave s j) j.key = some j := by
  unfold repoSave repoGet
  split
  · simpa [addToRecent] using lookup_jobsInsert s.jobs j.key j
  · simpa using lookup_jobsInsert s.jobs j.key j

/-- A blocked job "b" waiting on dependency "a". -/
def blockedJob : Job :=
  { key := "b", uidx := 0, status := JobStatus.blocked,
    blocked := true, depends_on := ["a"], all_deps := ["a"] }

/-- A store with one blocked job "b" waiting on dependency "a". -/
def blockedStore : RepoState :=
  { jobs := [("b", blockedJob)], current_index := 1 }

/-- C7 counterexample: `unblock_job` on the blocked job "b" clears the
blocked flag and reverts the status to Pending, but the stored job still
carries its dependency list `["a"]` — the claim's "empty depends_on list
after unblock" is false of `JobService.unblock_job` alone. -/
theorem unblockJob_leaves_depends_on_cex :
    ∃ j1 s1, unblockJob blockedStore "b" = Except.ok (j1, s1) ∧
      repoGet s1 "b" = some j1 ∧ j1.blocked = false ∧
      j1.status = JobStatus.pending ∧ j1.depends_on = ["a"] ∧
      j1.depends_on ≠ [] :=
  ⟨_, _, rfl, by decide, by decide, by decide, by decide, by decide⟩

/-- C7 as amended: for every blocked job, `unblock_job` clears the blocked
flag, reverts the status to Pending and persists, leaving `depends_on`
unchanged; the dependency list is cleared by the separate
`set_dependencies` call that the main flow issues together with unblocking
(`impl_main`, `job.unblocked(jobs)` followed by
`job.setDependencies(jobs, None)`), after which the stored job has
`blocked = false`, an empty `depends_on` list and status Pending. -/
theorem unblock_then_clear_dependencies (s : RepoState) (k : String)
    (j0 : Job) (hget : repoGet s k = some j0) (hkey : j0.key = k)
    (hb : j0.status = JobStatus.blocked) :
    ∃ j1 s1 j2 s2,
      unblockJob s k = Except.ok (j1, s1) ∧
      repoGet s1 k = some j1 ∧
      j1.blocked = false ∧ j1.status = JobStatus.pending ∧
      j1.depends_on = j0.depends_on ∧
      setDependencies s1 k [] = Except.ok (j2, s2) ∧
      repoGet s2 k = some j2 ∧
      j2.blocked = false ∧ j2.status = JobStatus.pending ∧
      j2.depends_on = [] := by
  have h2 : repoGet
      (repoSave s { j0 with
        blocked := false
        status := JobStatus.pending })
      k = some { j0 with
        blocked := false
        status := JobStatus.pending } := by
    rw [← hkey]
    exact repoGet_repoSave s { j0 with
      blocked := false
      status := JobStatus.pending }
  refine ⟨{ j0 with
      blocked := false
      status := JobStatus.pending },
    repoSave s { j0 with
      blocked := false
      status := JobStatus.pending },
    { j0 with
      blocked := false
      status := JobStatus.pending
      depends_on := []
      all_deps := ([] : List String).dedup },
    repoSave (repoSave s { j0 with
      blocked := false
      status := JobStatus.pending }) { j0 with
      blocked := false
      status := JobStatus.pending
      depends_on := []
      all_deps := ([] : List String).dedup },
    ?_, h2, rfl, rfl, rfl, ?_, ?_, rfl, rfl, rfl⟩
  · unfold unblockJob
    rw [hget]
    dsimp only
    rw [if_pos hb]
  · unfold setDependencies
    rw [h2]
  · rw [← hkey]
    exact repoGet_repoSave
      (repoSave s { j0 with
        blocked := false
        status := JobStatus.pending })
      { j0 with
        blocked := false
        status := JobStatus.pending
        depends_on := []
        all_deps := ([] : List String).dedup }

/-- Witness for amended C7 at the blocked job "b" of `blockedStore`. -/
theorem unblock_then_clear_dependencies_witness :
    ∃ j1 s1 j2 s2,
      unblockJob blockedStore "b" = Except.ok (j1, s1) ∧
      repoGet s1 "b" = some j1 ∧
      j1.blocked = false ∧ j1.status = JobStatus.pending ∧
      j1.depends_on = blockedJob.depends_on ∧
      setDependencies s1 "b" [] = Except.ok (j2, s2) ∧
      repoGet s2 "b" = some j2 ∧
      j2.blocked = false ∧ j2.status = JobStatus.pending ∧
      j2.depends_on = [] :=
  unblock_then_clear_dependencies blockedStore "b" blockedJob
    (by decide) rfl rfl

/-! ## C9 and C10: the recent-keys ring buffer and the delete frame
effect -/

/-- The repository mutations that touch `recent_keys`: `save` and
`delete`. -/
inductive StoreOp where
  | save (j : Job)
  | del (k : String)

/-- Apply one store operation. -/
def applyOp (s : RepoState) : StoreOp → RepoState
  | StoreOp.save j => repoSave s j
  | StoreOp.del k => repoDelete s k

/-- Apply a sequence of store operations in order. -/
def applyOps (s : RepoState) (ops : List StoreOp) : RepoState :=
  ops.foldl applyOp s

/-- The ring-buffer invariant: at most 100 entries, no duplicates. -/
def recentInv (s : RepoState) : Prop :=
  s.meta.recent_keys.length ≤ 100 ∧ s.meta.recent_keys.Nodup

instance (s : RepoState) : Decidable (recentInv s) := by
  unfold recentInv
  infer_instance

theorem recentInv_addToRecent {s : RepoState} (h : recentInv s)
    (k : String) : recentInv (addToRecent s k) := by
  obtain ⟨h1, h2⟩ := h
  unfold addToRecent recentInv
  dsimp only
  have hnd : (k :: s.meta.recent_keys.erase k).Nodup := by
    refine List.Nodup.cons ?_ (h2.erase k)
    intro hmem
    exact absurd ((h2.mem_erase_iff).mp hmem).1 (by simp)
  by_cases hlen : (k :: s.meta.recent_keys.erase k).length > 100
  · rw [if_pos hlen]
    constructor
    · simpa using List.length_take_le 100 _
    · exact ((List.take_sublist 100 _).nodup hnd)
  · rw [if_neg hlen]
    exact ⟨by omega, hnd⟩

theorem recentInv_removeFromRecent {s : RepoState} (h : recentInv s)
    (k : String) : recentInv (removeFromRecent s k) := by
  obtain ⟨h1, h2⟩ := h
  unfold removeFromRecent
  split
  · constructor
    · calc (s.meta.recent_keys.erase k).length
          ≤ s.meta.recent_keys.length := List.length_erase_le _ _
        _ ≤ 100 := h1
    · exact h2.erase k
  · exact ⟨h1, h2⟩

theorem recentInv_repoSave {s : RepoState} (h : recentInv s) (j : Job) :
    recentInv (repoSave s j) := by
  unfold repoSave
  dsimp only
  split
  · exact recentInv_addToRecent h j.key
  · exact h

theorem recentInv_repoDelete {s : RepoState} (h : recentInv s) (k : String) :
    recentInv (repoDelete s k) := by
  unfold repoDelete
  exact @recentInv_removeFromRecent { s with jobs := s.jobs.filter (fun p => p.1 ≠ k) } h k

theorem recentInv_applyOps {s : RepoState} (h : recentInv s)
    (ops : List StoreOp) : recentInv (applyOps s ops) := by
  induction ops generalizing s with
  | nil => exact h
  | cons op t ih =>
    cases op with
    | save j => exact ih (recentInv_repoSave h j)
    | del k => exact ih (recentInv_repoDelete h k)

theorem addToRecent_moves_to_front (s : RepoState) (k : String) :
    (addToRecent s k).meta.recent_keys.head? = some k := by
  unfold addToRecent
  dsimp only
  by_cases hlen : (k :: s.meta.recent_keys.erase k).length > 100
  · rw [if_pos hlen]
    rw [show (100 : Nat) = 99 + 1 from rfl, List.take_succ_cons]
    rfl
  · rw [if_neg hlen]
    rfl

/-- C9: the `recent_keys` list is a bounded move-to-front buffer: starting
from any state satisfying the invariant (at most 100 keys, no duplicates —
the fresh store does), any sequence of saves and deletes preserves it;
saving a completed non-auto job puts that job's key at the front; and
re-adding a key already present moves it to the front without duplicating
it or growing the list. -/
theorem recent_keys_bounded_ring_buffer (s : RepoState) (h : recentInv s) :
    (∀ ops, recentInv (applyOps s ops)) ∧
    (∀ j : Job, j.status = JobStatus.completed → j.auto_job = false →
      (repoSave s j).meta.recent_keys.head? = some j.key) ∧
    (∀ k, k ∈ s.meta.recent_keys →
      (addToRecent s k).meta.recent_keys.head? = some k ∧
      (addToRecent s k).meta.recent_keys.count k = 1 ∧
      (addToRecent s k).meta.recent_keys.length =
        s.meta.recent_keys.length) := by
  refine ⟨fun ops => recentInv_applyOps h ops, ?_, ?_⟩
  · intro j hc ha
    unfold repoSave
    dsimp only
    rw [if_pos ⟨hc, ha⟩]
    exact addToRecent_moves_to_front _ j.key
  · intro k hk
    have hinv := recentInv_addToRecent h k
    have hhead := addToRecent_moves_to_front s k
    refine ⟨hhead, ?_, ?_⟩
    · have hmem : k ∈ (addToRecent s k).meta.recent_keys := by
        cases hl : (addToRecent s k).meta.recent_keys with
        | nil => rw [hl] at hhead; simp at hhead
        | cons a t =>
          rw [hl] at hhead
          simp at hhead
          rw [hhead]
          exact List.mem_cons_self k t
      exact List.count_eq_one_of_mem hinv.2 hmem
    · have hlenE : (k :: s.meta.recent_keys.erase k).length =
          s.meta.recent_keys.length := by
        have := List.length_erase_of_mem hk
        have hpos : 0 < s.meta.recent_keys.length := List.length_pos.mpr
          (List.ne_nil_of_mem hk)
        simp only [List.length_cons, this]
        omega
      unfold addToRecent
      dsimp only
      have hnb : ¬ (k :: s.meta.recent_keys.erase k).length > 100 := by
        rw [hlenE]
        have := h.1
        omega
      rw [if_neg hnb]
      exact hlenE

/-- Witness for C9 at `demoStore`. -/
theorem recent_keys_bounded_ring_buffer_witness :
    recentInv demoStore ∧
      ((∀ ops, recentInv (applyOps demoStore ops)) ∧
      (∀ j : Job, j.status = JobStatus.completed → j.auto_job = false →
        (repoSave demoStore j).meta.recent_keys.head? = some j.key) ∧
      (∀ k, k ∈ demoStore.meta.recent_keys →
        (addToRecent demoStore k).meta.recent_keys.head? = some k ∧
        (addToRecent demoStore k).meta.recent_keys.count k = 1 ∧
        (addToRecent demoStore k).meta.recent_keys.length =
          demoStore.meta.recent_keys.length)) :=
  ⟨by decide, recent_keys_bounded_ring_buffer demoStore (by decide)⟩

theorem lookup_filter_ne (l : List (String × Job)) (k : String) :
    (l.filter (fun p => p.1 ≠ k)).lookup k = none := by
  induction l with
  | nil => rfl
  | cons p t ih =>
    by_cases hp : p.1 = k
    · have : (decide (p.1 ≠ k)) = false := by simp [hp]
      rw [List.filter_cons, this]
      exact ih
    · have hdec : (decide (p.1 ≠ k)) = true := by simp [hp]
      rw [List.filter_cons, hdec]
      simp only [List.lookup]
      rw [beq_false_of_ne (fun h => hp h.symm)]
      exact ih

/-- C10: `delete(k)` removes the job row and removes `k` from
`recent_keys` (given the ring-buffer no-duplicates invariant, the buffer no
longer contains `k` afterwards), while `schema_version`, `last_key`,
`last_job` and `checkpoint` are untouched. -/
theorem repoDelete_removes_key_from_recent_frame (s : RepoState)
    (k : String) (hnd : s.meta.recent_keys.Nodup) :
    repoGet (repoDelete s k) k = none ∧
    k ∉ (repoDelete s k).meta.recent_keys ∧
    (repoDelete s k).meta.schema_version = s.meta.schema_version ∧
    (repoDelete s k).meta.last_key = s.meta.last_key ∧
    (repoDelete s k).meta.last_job = s.meta.last_job ∧
    (repoDelete s k).meta.checkpoint = s.meta.checkpoint := by
  unfold repoDelete removeFromRecent
  split
  · refine ⟨lookup_filter_ne s.jobs k, ?_, rfl, rfl, rfl, rfl⟩
    intro hmem
    exact absurd ((hnd.mem_erase_iff).mp hmem).1 (by simp)
  · refine ⟨lookup_filter_ne s.jobs k, ?_, rfl, rfl, rfl, rfl⟩
    intro hmem
    rename_i hnotin
    exact hnotin hmem

/-- Witness for C10: deleting the completed job "c" from `demoStore`. -/
theorem repoDelete_removes_key_from_recent_frame_witness :
    repoGet (repoDelete demoStore "c") "c" = none ∧
    "c" ∉ (repoDelete demoStore "c").meta.recent_keys ∧
    (repoDelete demoStore "c").meta.schema_version =
      demoStore.meta.schema_version ∧
    (repoDelete demoStore "c").meta.last_key = demoStore.meta.last_key ∧
    (repoDelete demoStore "c").meta.last_job = demoStore.meta.last_job ∧
    (repoDelete demoStore "c").meta.checkpoint =
      demoStore.meta.checkpoint :=
  repoDelete_removes_key_from_recent_frame demoStore "c" (by decide)

/-! ## C6: the success-dependency short-circuit in the main flow

The locked section of `impl_main` (`src/jobrunner/main.py`, lines 152-200)
drives a `JobInfo` (`src/jobrunner/info.py`) through blocked / unblocked /
stop / start mutations; every `parent.active[key] = self` or
`parent.inactive[k] = self` persists a snapshot whose stored status is
derived by `_determine_job_status`
(`src/jobrunner/adapters/job_converter.py`). -/

/-- `utils.STOP_DEPFAIL`: the reserved dependency-failure exit code. -/
def STOP_DEPFAIL : Int := -1003

/-- The mutable `JobInfo` state the locked section manipulates (fields
`_start`, `_stop`, `_rc`, `pid`, `_blocked`, `_depends` of
`info.JobInfo`). -/
structure JobI where
  key : String
  start : Option Nat := none
  stop : Option Nat := none
  rci : Option Int := none
  pidi : Option Nat := none
  blockedFlag : Bool := false
  depends : Option (List String) := none
deriving DecidableEq, Repr

/-- `_determine_job_status`: stopped jobs are Completed, else blocked jobs
are Blocked, else started jobs are Running, else Pending. -/
def statusOf (j : JobI) : JobStatus :=
  if j.stop ≠ none then JobStatus.completed
  else if j.blockedFlag then JobStatus.blocked
  else if j.start ≠ none then JobStatus.running
  else JobStatus.pending

/-- `JobInfo.blocked`: set the blocked flag. -/
def jBlocked (j : JobI) : JobI :=
  { j with blockedFlag := true }

/-- `JobInfo.unblocked`: clear the blocked flag. -/
def jUnblocked (j : JobI) : JobI :=
  { j with blockedFlag := false }

/-- `JobInfo.setDependencies`: store the dependency key list (None clears
it). -/
def jSetDeps (j : JobI) (deps : Option (List String)) : JobI :=
  { j with depends := deps }

/-- `JobInfo.start`: record the start time. -/
def jStart (j : JobI) (now : Nat) : JobI :=
  { j with start := some now }

/-- `JobInfo.stop`: record the stop time and exit code, clear the pid. -/
def jStop (j : JobI) (rc : Int) (now : Nat) : JobI :=
  { j with stop := some now, rci := some rc, pidi := none }

/-- The `while deps:` wait loop of `impl_main`: each iteration persists the
job with the remaining dependency list attached, then pops the head and
waits for it (the wait itself does not mutate the job).  Returns the final
job state and the persisted snapshots in order. -/
def depLoop (j : JobI) : List String → JobI × List JobI
  | [] => (j, [])
  | d :: rest =>
    let j1 := jSetDeps j (some (d :: rest))
    let p := depLoop j1 rest
    (p.1, j1 :: p.2)

/-- The locked section of `impl_main` for a freshly created job: persist
the job; if it has dependencies, mark it blocked, run the wait loop, then
(in the `finally`) unblock it and clear its dependency list; then walk the
success-type dependencies in order — the first one that completed with a
non-zero exit code makes the job stop with `STOP_DEPFAIL` and the process
exit with that dependency's code; if none failed, the job starts.  Returns
the final job state, every persisted snapshot in order, and the early-exit
code if the short-circuit fired.  `succRcs` lists the exit codes the
success dependencies completed with, in `depSuccess` order. -/
def mainLockedTrace (j0 : JobI) (deps : List String) (succRcs : List Int)
    (now : Nat) : JobI × List JobI × Option Int :=
  let phase :=
    if deps = [] then (j0, ([] : List JobI))
    else
      let jb := jBlocked j0
      let p := depLoop jb deps
      let ju := jUnblocked p.1
      let jn := jSetDeps ju none
      (jn, jb :: p.2 ++ [ju, jn])
  let j1 := phase.1
  match succRcs.find? (fun rc => rc != 0) with
  | some bad =>
    let js := jStop j1 STOP_DEPFAIL now
    (js, j0 :: phase.2 ++ [js], some bad)
  | none =>
    let jr := jStart j1 now
    (jr, j0 :: phase.2 ++ [jr], none)

theorem statusOf_ne_running_of_start_none {j : JobI} (h : j.start = none) :
    statusOf j ≠ JobStatus.running := by
  unfold statusOf
  split
  · simp
  · split
    · simp
    · rw [if_neg (by simp [h])]
      simp

theorem depLoop_frame (j : JobI) (deps : List String) :
    (depLoop j deps).1.start = j.start ∧
    (depLoop j deps).1.stop = j.stop ∧
    (∀ t ∈ (depLoop j deps).2, t.start = j.start ∧ t.stop = j.stop) := by
  induction deps generalizing j with
  | nil => exact ⟨rfl, rfl, by simp [depLoop]⟩
  | cons d rest ih =>
    have h := ih (jSetDeps j (some (d :: rest)))
    refine ⟨h.1, h.2.1, ?_⟩
    intro t ht
    simp only [depLoop, List.mem_cons] at ht
    rcases ht with rfl | ht
    · exact ⟨rfl, rfl⟩
    · exact h.2.2 t ht

theorem find?_ne_zero_of_mem {l : List Int} (z : Int) (hz : z ∈ l)
    (hnz : z ≠ 0) : l.find? (fun rc => rc != 0) ≠ none := by
  induction l with
  | nil => simp at hz
  | cons a t ih =>
    rw [List.find?]
    by_cases ha : (a != 0) = true
    · rw [ha]
      simp
    · rw [Bool.not_eq_true] at ha
      rw [ha]
      rcases List.mem_cons.mp hz with rfl | hmem
      · exact absurd (by simpa using ha) hnz
      · exact ih hmem

/-- C6: a job waiting on a success-type dependency that completed with a
non-zero exit code is stopped with the reserved code `STOP_DEPFAIL = -1003`
and persists as Completed, without ever being started: its `start_time`
stays null in the final state and in every persisted snapshot, so no
persisted state is ever Running, and the process exits early (the job's
own command never runs). -/
theorem success_dep_failure_short_circuits (j0 : JobI) (deps : List String)
    (succRcs : List Int) (now : Nat)
    (h0 : j0.start = none) (h0s : j0.stop = none)
    (hbad : ∃ z ∈ succRcs, z ≠ 0) :
    statusOf (mainLockedTrace j0 deps succRcs now).1 = JobStatus.completed ∧
    (mainLockedTrace j0 deps succRcs now).1.rci = some STOP_DEPFAIL ∧
    STOP_DEPFAIL = -1003 ∧
    (mainLockedTrace j0 deps succRcs now).1.start = none ∧
    (∀ t ∈ (mainLockedTrace j0 deps succRcs now).2.1,
      t.start = none ∧ statusOf t ≠ JobStatus.running) ∧
    (mainLockedTrace j0 deps succRcs now).2.2 ≠ none := by
  obtain ⟨z, hz, hnz⟩ := hbad
  have hfind := find?_ne_zero_of_mem z hz hnz
  unfold mainLockedTrace
  dsimp only
  cases hf : succRcs.find? (fun rc => rc != 0) with
  | none => exact absurd hf hfind
  | some bad =>
    dsimp only
    have hP : ∀ t : JobI, t.start = none →
        t.start = none ∧ statusOf t ≠ JobStatus.running := fun t ht =>
      ⟨ht, statusOf_ne_running_of_start_none ht⟩
    by_cases hdeps : deps = []
    · rw [if_pos hdeps]
      dsimp only
      refine ⟨by simp [statusOf, jStop], rfl, rfl, h0, ?_, by simp⟩
      simp only [List.forall_mem_append, List.forall_mem_singleton]
      exact ⟨hP _ h0, hP _ h0⟩
    · rw [if_neg hdeps]
      dsimp only
      have hfr := depLoop_frame (jBlocked j0) deps
      have hstart1 : (depLoop (jBlocked j0) deps).1.start = none := by
        rw [hfr.1]; exact h0
      refine ⟨by simp [statusOf, jStop], rfl, rfl, hstart1, ?_, by simp⟩
      simp only [List.cons_append, List.forall_mem_cons, List.forall_mem_append,
        List.forall_mem_singleton]
      refine ⟨hP _ h0, hP _ h0, ⟨?_, hP _ hstart1, hP _ hstart1, by simp⟩,
        hP _ hstart1, by simp⟩
      intro t ht
      refine hP t ?_
      rw [(hfr.2.2 t ht).1]
      exact h0

/-- Witness for C6: a fresh job waiting on one success dependency "d" that
completed with exit code 2. -/
theorem success_dep_failure_short_circuits_witness :
    statusOf (mainLockedTrace { key := "j" } ["d"] [2] 7).1 =
      JobStatus.completed ∧
    (mainLockedTrace { key := "j" } ["d"] [2] 7).1.rci =
      some STOP_DEPFAIL ∧
    STOP_DEPFAIL = -1003 ∧
    (mainLockedTrace { key := "j" } ["d"] [2] 7).1.start = none ∧
    (∀ t ∈ (mainLockedTrace { key := "j" } ["d"] [2] 7).2.1,
      t.start = none ∧ statusOf t ≠ JobStatus.running) ∧
    (mainLockedTrace { key := "j" } ["d"] [2] 7).2.2 ≠ none :=
  success_dep_failure_short_circuits { key := "j" } ["d"] [2] 7 rfl rfl
    ⟨2, by decide, by decide⟩

/-! ## The sequence tables
(`SqliteJobRepository.add_sequence_step` / `get_sequence_steps` /
`list_sequences` / `delete_sequence` / `is_sequence`). -/

/-- `sequences.DEP_TYPE_SUCCESS`. -/
def DEP_TYPE_SUCCESS : String := "success"

/-- `sequences.DEP_TYPE_COMPLETION`. -/
def DEP_TYPE_COMPLETION : String := "completion"

/-- `is_sequence`: does any step row carry this name? -/
def isSequence (s : RepoState) (name : String) : Bool :=
  s.seq_steps.any (fun st => st.name == name)

/-- `SELECT MAX(step_number) FROM sequence_steps WHERE name = ?`. -/
def maxStep (s : RepoState) (name : String) : Option Nat :=
  ((s.seq_steps.filter (fun st => st.name == name)).map
    SeqStep.step_number).max?

/-- `add_sequence_step`: assign the next step number for the name, insert
the step row and one dependency row per `(dependency_step, type)` pair,
then commit once. -/
def addSequenceStep (s : RepoState) (name job_key : String)
    (dependencies : List (Nat × String)) : Nat × RepoState :=
  let next_step := match maxStep s name with
    | none => 0
    | some m => m + 1
  (next_step,
    { s with
      seq_steps := s.seq_steps ++ [⟨name, next_step, job_key⟩]
      seq_deps := s.seq_deps ++
        dependencies.map (fun d => ⟨name, next_step, d.1, d.2⟩) })

/-- `delete_sequence`: drop the dependency rows then the step rows of the
name, in one commit. -/
def deleteSequence (s : RepoState) (name : String) : RepoState :=
  { s with
    seq_deps := s.seq_deps.filter (fun d => d.name ≠ name)
    seq_steps := s.seq_steps.filter (fun st => st.name ≠ name) }

/-- `SELECT DISTINCT name FROM sequence_steps ORDER BY name`. -/
def listSequences (s : RepoState) : List String :=
  ((s.seq_steps.map SeqStep.name).dedup).insertionSort (· ≤ ·)

/-- The dependency rows of one step, projected to
`(dependency_step, dependency_type)`. -/
def stepDeps (s : RepoState) (name : String) (step : Nat) :
    List (Nat × String) :=
  (s.seq_deps.filter
      (fun d => d.name == name && d.step_number == step)).map
    (fun d => (d.dependency_step, d.dependency_type))

/-- `get_sequence_steps`: all steps of the name ordered by step number
(`ORDER BY step_number`, modelled as a stable sort), each with its
dependency pairs. -/
def getSequenceSteps (s : RepoState) (name : String) :
    List (Nat × String × List (Nat × String)) :=
  ((s.seq_steps.filter (fun st => st.name == name)).insertionSort
      (fun a b => a.step_number ≤ b.step_number)).map
    (fun st => (st.step_number, st.job_key, stepDeps s name st.step_number))

/-! ## C8: sequence-name validation and the empty-sequence replay error -/

/-- The character class `[a-zA-Z0-9_.-]` of `validate_sequence_name`. -/
def seqNameChar (c : Char) : Bool :=
  c.isAlpha || c.isDigit || c = '_' || c = '.' || c = '-'

/-- Matching the rest of the input after at least one class character was
consumed, against `[cls]*$` in Python `re` semantics: `$` matches at the
end of the input or just before one final newline. -/
def restClassDollar (cls : Char → Bool) : List Char → Bool
  | [] => true
  | [c] => c = '\n' || cls c
  | c :: rest => cls c && restClassDollar cls rest

/-- `re.match` of the pattern `^[cls]+$` under Python semantics. -/
def reMatchPlusDollar (cls : Char → Bool) : List Char → Bool
  | [] => false
  | c :: rest => cls c && restClassDollar cls rest

/-- `sequences.validate_sequence_name`: reject empty names, names longer
than 255 characters, and names the pattern `^[a-zA-Z0-9_.-]+$` does not
match. -/
def validateSequenceName (name : String) : Except String Unit :=
  if name = "" then
    Except.error "Sequence name cannot be empty"
  else if name.length > 255 then
    Except.error "Sequence name too long (max 255 characters)"
  else if reMatchPlusDollar seqNameChar name.data then
    Except.ok ()
  else
    Except.error "Sequence name can only contain letters, numbers, underscores, hyphens, and dots"

/-- `sequences.get_sequence_replay_plan`: validate the name, fail when no
step row carries it, otherwise split each step's dependency pairs into
completion-wait and success-wait step-number lists. -/
def getSequenceReplayPlan (s : RepoState) (name : String) :
    Except String (List (String × List Nat × List Nat)) :=
  match validateSequenceName name with
  | Except.error e => Except.error e
  | Except.ok _ =>
    if isSequence s name then
      Except.ok ((getSequenceSteps s name).map (fun step =>
        (step.2.1,
         (step.2.2.filter (fun d => !(d.2 == DEP_TYPE_SUCCESS))).map
           Prod.fst,
         (step.2.2.filter (fun d => d.2 == DEP_TYPE_SUCCESS)).map
           Prod.fst)))
    else
      Except.error ("No sequence named " ++ name ++ " found. " ++
        "Use job --list-seq to see available sequences")

theorem restClassDollar_iff (cls : Char → Bool) (r : List Char) :
    restClassDollar cls r = true ↔
      r.all cls = true ∨
        ∃ t, r = t ++ [Char.ofNat 10] ∧ t.all cls = true := by
  induction r with
  | nil =>
    simp only [restClassDollar, List.all_nil, true_or]
  | cons c rest ih =>
    cases rest with
    | nil =>
      show (decide (c = Char.ofNat 10) || cls c) = true ↔ _
      constructor
      · intro h
        rcases Bool.or_eq_true_iff.mp h with h | h
        · exact Or.inr ⟨[], by simp [decide_eq_true_eq.mp h], rfl⟩
        · exact Or.inl (by simp [h])
      · intro h
        rcases h with h | ⟨t, ht, hta⟩
        · simp only [List.all_cons, List.all_nil, Bool.and_true] at h
          simp [h]
        · cases t with
          | nil =>
            simp only [List.nil_append, List.cons.injEq] at ht
            simp [ht.1]
          | cons x xs =>
            simp only [List.cons_append, List.cons.injEq] at ht
            exact absurd ht.2 (by simp)
    | cons d rest2 =>
      show (cls c && restClassDollar cls (d :: rest2)) = true ↔ _
      rw [Bool.and_eq_true, ih]
      constructor
      · rintro ⟨hc, hr | ⟨t, ht, hta⟩⟩
        · exact Or.inl (by simp [hc, hr])
        · exact Or.inr ⟨c :: t, by rw [List.cons_append, ht],
            by simp [hc, hta]⟩
      · rintro (h | ⟨t, ht, hta⟩)
        · rw [List.all_cons, Bool.and_eq_true] at h
          exact ⟨h.1, Or.inl h.2⟩
        · cases t with
          | nil =>
            simp only [List.nil_append, List.cons.injEq] at ht
            exact absurd ht.2 (by simp)
          | cons x xs =>
            simp only [List.cons_append, List.cons.injEq] at ht
            obtain ⟨rfl, ht2⟩ := ht
            rw [List.all_cons, Bool.and_eq_true] at hta
            exact ⟨hta.1, Or.inr ⟨xs, ht2, hta.2⟩⟩

theorem reMatchPlusDollar_iff (cls : Char → Bool) (s : List Char) :
    reMatchPlusDollar cls s = true ↔
      (s ≠ [] ∧ s.all cls = true) ∨
        ∃ t, s = t ++ [Char.ofNat 10] ∧ t ≠ [] ∧ t.all cls = true := by
  cases s with
  | nil =>
    simp only [reMatchPlusDollar]
    constructor
    · intro h; exact absurd h (by simp)
    · rintro (⟨h, _⟩ | ⟨t, ht, _, _⟩)
      · exact absurd rfl h
      · exact absurd ht (by simp)
  | cons c rest =>
    show (cls c && restClassDollar cls rest) = true ↔ _
    rw [Bool.and_eq_true, restClassDollar_iff]
    constructor
    · rintro ⟨hc, hr | ⟨t, ht, hta⟩⟩
      · exact Or.inl ⟨by simp, by simp [hc, hr]⟩
      · exact Or.inr ⟨c :: t, by rw [List.cons_append, ht], by simp,
          by simp [hc, hta]⟩
    · rintro (⟨_, h⟩ | ⟨t, ht, htne, hta⟩)
      · rw [List.all_cons, Bool.and_eq_true] at h
        exact ⟨h.1, Or.inl h.2⟩
      · cases t with
        | nil => exact absurd rfl htne
        | cons x xs =>
          simp only [List.cons_append, List.cons.injEq] at ht
          obtain ⟨rfl, ht2⟩ := ht
          rw [List.all_cons, Bool.and_eq_true] at hta
          exact ⟨hta.1, Or.inr ⟨xs, ht2, hta.2⟩⟩

/-- C8 counterexample: the name `"a\n"` — length 2, containing a newline,
which is not in the allowed character set — is nonetheless accepted,
because Python's `$` also matches just before a trailing newline.  The
claim's "accepts exactly the strings over the allowed set" is false. -/
theorem validateSequenceName_accepts_trailing_newline_cex :
    validateSequenceName "a\n" = Except.ok () ∧
      "a\n".data.all seqNameChar = false ∧
      "a\n".length ≤ 255 ∧ "a\n" ≠ "" := by
  refine ⟨?_, by decide, by decide, by decide⟩
  rfl

/-- C8 as amended: validation accepts exactly the names of length at most
255 that either consist of one or more characters from
`[a-zA-Z0-9_.-]`, or are such a nonempty string followed by one trailing
newline (Python's `$` matches before a final newline); and planning a
replay for a validly named sequence that has no recorded steps fails with
the "no sequence named" error rather than succeeding. -/
theorem validate_sequence_name_amended :
    (∀ name : String,
      validateSequenceName name = Except.ok () ↔
        name.length ≤ 255 ∧
          ((name.data ≠ [] ∧ name.data.all seqNameChar = true) ∨
            ∃ t, name.data = t ++ [Char.ofNat 10] ∧ t ≠ [] ∧
              t.all seqNameChar = true)) ∧
    (∀ st name, validateSequenceName name = Except.ok () →
      isSequence st name = false →
      ∃ e, getSequenceReplayPlan st name = Except.error e) := by
  constructor
  · intro name
    unfold validateSequenceName
    by_cases h0 : name = ""
    · rw [if_pos h0]
      constructor
      · intro h; exact absurd h (by simp)
      · rintro ⟨_, ⟨hne, _⟩ | ⟨t, ht, htne, _⟩⟩
        · exact absurd (by simp [h0]) hne
        · rw [h0] at ht
          exact absurd ht.symm (by simp)
    · rw [if_neg h0]
      by_cases h1 : name.length > 255
      · rw [if_pos h1]
        constructor
        · intro h; exact absurd h (by simp)
        · rintro ⟨hle, _⟩; omega
      · rw [if_neg h1]
        by_cases h2 : reMatchPlusDollar seqNameChar name.data = true
        · rw [if_pos h2]
          have hm := (reMatchPlusDollar_iff seqNameChar name.data).mp h2
          simp only [true_iff]
          exact ⟨by omega, hm⟩
        · rw [if_neg h2]
          constructor
          · intro h; exact absurd h (by simp)
          · rintro ⟨_, hm⟩
            exact absurd ((reMatchPlusDollar_iff seqNameChar name.data).mpr
              hm) h2
  · intro st name hval hseq
    unfold getSequenceReplayPlan
    rw [hval]
    dsimp only
    rw [if_neg (by rw [hseq]; simp)]
    exact ⟨_, rfl⟩

/-- Witness for amended C8: "seq-1" is accepted, and planning its replay
on an empty store reports the no-such-sequence error. -/
theorem validate_sequence_name_amended_witness :
    validateSequenceName "seq-1" = Except.ok () ∧
      ∃ e, getSequenceReplayPlan freshRepo "seq-1" = Except.error e := by
  have hok : validateSequenceName "seq-1" = Except.ok () :=
    (validate_sequence_name_amended.1 "seq-1").mpr
      ⟨by decide, Or.inl ⟨by decide, by decide⟩⟩
  exact ⟨hok,
    validate_sequence_name_amended.2 freshRepo "seq-1" hok (by decide)⟩

/-! ## The sequence recorder (`sequences.record_sequence`)

`record_sequence` builds `job_deps_map` (job key ↦ direct dependency keys,
refetched from the repository), walks the transitive closure with a
worklist, topologically orders the closure with a post-order DFS from the
triggering job, and writes one sequence step per chain entry.  The Python
dict is modelled as an association list with replace-on-assign; the
`while to_fetch` worklist and the recursive `visit` carry fuel in the
model, with enough of it that the fuel never runs out (the worklist pops
one key per iteration and only ever enqueues the `depends_on` entries of
repository rows, each at most once; the DFS recursion nests at most once
per map key). -/

/-- `job_deps_map`: job key ↦ its direct dependency key list. -/
abbrev DepsMap := List (String × List String)

/-- Dict lookup. -/
def lookupKey (m : DepsMap) (k : String) : Option (List String) :=
  m.lookup k

/-- Dict assignment: replace the entry if the key is present, else append. -/
def insertKV (m : DepsMap) (k : String) (v : List String) : DepsMap :=
  if (m.lookup k).isSome then
    m.map (fun p => if p.1 = k then (k, v) else p)
  else
    m ++ [(k, v)]

/-- The persisted `depends_on` of a key, `[]` when the job is absent (the
recorder refetches dependencies from the repository because in-memory
copies may already be cleared). -/
def dbDependsOn (s : RepoState) (k : String) : List String :=
  match repoGet s k with
  | some j => j.depends_on
  | none => []

/-- The seed of `job_deps_map`: every direct dependency with its
repository-fetched dependency list, then the current job with its direct
dependency keys (a dict assignment, so a self-referential current job
would replace its seed entry, as in the source). -/
def seedMap (s : RepoState) (current : String) (allDeps : List String) :
    DepsMap :=
  insertKV
    (allDeps.foldl (fun m dk => insertKV m dk (dbDependsOn s dk)) [])
    current allDeps

/-- The `while to_fetch:` worklist: pop a key; skip it when already in the
map; fetch it from the repository (skip when absent); record its
dependency list and enqueue the dependencies not yet in the map. -/
def fetchTransitive (s : RepoState) :
    Nat → List String → DepsMap → DepsMap
  | 0, _, m => m
  | _ + 1, [], m => m
  | f + 1, k :: q, m =>
    if (lookupKey m k).isSome then
      fetchTransitive s f q m
    else
      match repoGet s k with
      | none => fetchTransitive s f q m
      | some j =>
        let m2 := insertKV m k j.depends_on
        fetchTransitive s f
          (q ++ j.depends_on.filter (fun d => (lookupKey m2 d).isNone)) m2

/-- Fuel that the worklist can never exhaust: one unit per initially
enqueued key plus one per dependency edge stored in the repository (each
repository row is processed at most once, so its dependencies are enqueued
at most once). -/
def fetchFuel (s : RepoState) (q0 : List String) : Nat :=
  q0.length + ((s.jobs.map (fun p => p.2.depends_on.length)).sum) + 1

/-- `job_deps_map` as `record_sequence` builds it. -/
def buildDepsMap (s : RepoState) (current : String)
    (allDeps : List String) : DepsMap :=
  let m0 := seedMap s current allDeps
  let q0 := (m0.map Prod.snd).join.filter
    (fun d => (lookupKey m0 d).isNone)
  fetchTransitive s (fetchFuel s q0) q0 m0

/-- The recursive `visit` of the post-order DFS, on state
(visited, chain): skip visited keys and keys outside the map; otherwise
mark visited, visit the dependencies first, then append the key to the
chain. -/
def visitF (m : DepsMap) : Nat → String → List String × List String →
    List String × List String
  | 0, _, st => st
  | f + 1, k, st =>
    if k ∈ st.1 then st
    else
      match lookupKey m k with
      | none => st
      | some deps =>
        let st1 := deps.foldl (fun acc d => visitF m f d acc)
          (k :: st.1, st.2)
        (st1.1, st1.2 ++ [k])

/-- The topological chain: DFS from the triggering job on empty state.
Fuel `m.length + 1` is enough: each productive nesting level marks one
further map key visited. -/
def recordChain (m : DepsMap) (current : String) : List String :=
  (visitF m (m.length + 1) current ([], [])).2

/-- `job_to_step`: the dict built by `enumerate(chain)` — the index of the
last occurrence of the key in the chain (the chain is duplicate-free, so
this is the unique index). -/
def jobToStep (chain : List String) (k : String) : Option Nat :=
  (chain.enum.filterMap
    (fun p => if p.2 == k then some p.1 else none)).getLast?

/-- The dependency pairs recorded for one chain entry: its map-recorded
dependency keys that landed in the chain, as (step number, type) with type
success exactly for the original invocation's success-only
dependencies. -/
def stepEdges (m : DepsMap) (chain succKeys : List String) (k : String) :
    List (Nat × String) :=
  (match lookupKey m k with
    | some v => v
    | none => []).filterMap (fun dk =>
      match jobToStep chain dk with
      | some ds => some (ds,
          if dk ∈ succKeys then DEP_TYPE_SUCCESS else DEP_TYPE_COMPLETION)
      | none => none)

/-- The write loop of `record_sequence`: one `add_sequence_step` (one
commit) per chain entry, in chain order.  Returns the final state and the
state after each commit. -/
def writeStepsAux (name : String) (m : DepsMap) (chain succKeys : List String) :
    List String → RepoState → RepoState × List RepoState
  | [], s => (s, [])
  | k :: rest, s =>
    let s2 := (addSequenceStep s name k (stepEdges m chain succKeys k)).2
    let p := writeStepsAux name m chain succKeys rest s2
    (p.1, s2 :: p.2)

/-- `record_sequence`: validate the name, delete any existing sequence of
that name, build the dependency map, compute the chain, and write the
steps.  (The deletion does not touch the `jobs` table, so the map is built
from the original state's job rows, as in the source.) -/
def recordSequence (s : RepoState) (current : String)
    (allDeps succKeys : List String) (name : String) :
    Except String RepoState :=
  match validateSequenceName name with
  | Except.error e => Except.error e
  | Except.ok _ =>
    let s1 := if isSequence s name then deleteSequence s name else s
    let m := buildDepsMap s current allDeps
    let chain := recordChain m current
    Except.ok (writeStepsAux name m chain succKeys chain s1).1

/-- The repository states other connections can observe while
`record_sequence` runs: the state after the `delete_sequence` commit (when
a sequence of that name existed) and the state after each
`add_sequence_step` commit. -/
def recordSequenceCommits (s : RepoState) (current : String)
    (allDeps succKeys : List String) (name : String) : List RepoState :=
  match validateSequenceName name with
  | Except.error _ => []
  | Except.ok _ =>
    let s1 := if isSequence s name then deleteSequence s name else s
    let m := buildDepsMap s current allDeps
    let chain := recordChain m current
    (if isSequence s name then [deleteSequence s name] else []) ++
      (writeStepsAux name m chain succKeys chain s1).2

/-! ## DFS correctness: dependencies land earlier in the chain -/

/-- Is a key a key of the map? -/
def inMap (m : DepsMap) (k : String) : Bool :=
  (lookupKey m k).isSome

/-- Number of map keys not yet visited (duplicates counted; only used as a
fuel bound). -/
def unvisCount (m : DepsMap) (vis : List String) : Nat :=
  ((m.map Prod.fst).filter (fun k => decide (k ∉ vis))).length

theorem lookup_isSome_mem {m : DepsMap} {k : String}
    (h : (m.lookup k).isSome = true) : k ∈ m.map Prod.fst := by
  induction m with
  | nil => simp [List.lookup] at h
  | cons p t ih =>
    by_cases hk : k = p.1
    · exact hk ▸ List.mem_map.mpr ⟨p, List.mem_cons_self p t, rfl⟩
    · rw [List.lookup] at h
      rw [beq_false_of_ne hk] at h
      exact List.mem_cons_of_mem _ (ih h)

theorem length_filter_mono {α : Type} (l : List α) (p q : α → Bool)
    (h : ∀ x, p x = true → q x = true) :
    (l.filter p).length ≤ (l.filter q).length := by
  induction l with
  | nil => simp
  | cons a t ih =>
    rw [List.filter_cons, List.filter_cons]
    by_cases hpa : p a = true
    · rw [hpa, h a hpa]
      simpa using ih
    · rw [Bool.not_eq_true] at hpa
      rw [hpa]
      cases hqa : q a
      · exact ih
      · simp only [List.length_cons]
        exact Nat.le_succ_of_le ih

theorem unvisCount_mono {m : DepsMap} {vis vis' : List String}
    (h : ∀ x ∈ vis, x ∈ vis') : unvisCount m vis' ≤ unvisCount m vis := by
  refine length_filter_mono _ _ _ (fun x hx => ?_)
  simp only [decide_eq_true_eq] at hx ⊢
  intro hmem
  exact hx (h x hmem)

theorem length_filter_notmem_cons_lt {α : Type} [DecidableEq α]
    (l : List α) (k : α) (vis : List α) (hk : k ∈ l) (hkv : k ∉ vis) :
    (l.filter (fun x => decide (x ∉ k :: vis))).length <
      (l.filter (fun x => decide (x ∉ vis))).length := by
  induction l with
  | nil => simp at hk
  | cons a t ih =>
    by_cases hak : a = k
    · subst hak
      rw [List.filter_cons_of_neg (by simp),
        List.filter_cons_of_pos (by simp [hkv])]
      simp only [List.length_cons]
      have hle : (t.filter (fun x => decide (x ∉ a :: vis))).length ≤
          (t.filter (fun x => decide (x ∉ vis))).length := by
        refine length_filter_mono t _ _ (fun x hx => ?_)
        simp only [decide_eq_true_eq, List.mem_cons] at hx ⊢
        intro hxm
        exact hx (Or.inr hxm)
      omega
    · have hcons : (decide (a ∉ k :: vis)) = (decide (a ∉ vis)) := by
        by_cases hav : a ∈ vis
        · simp [hav]
        · simp [hav, hak]
      have hkt : k ∈ t := by
        rcases List.mem_cons.mp hk with h1 | h2
        · exact absurd h1.symm hak
        · exact h2
      cases hd : (decide (a ∉ vis))
      · rw [List.filter_cons_of_neg (by rw [hcons, hd]; simp),
          List.filter_cons_of_neg (by rw [hd]; simp)]
        exact ih hkt
      · rw [List.filter_cons_of_pos (by rw [hcons, hd]),
          List.filter_cons_of_pos (by rw [hd])]
        simp only [List.length_cons]
        exact Nat.succ_lt_succ (ih hkt)

theorem unvisCount_cons_lt {m : DepsMap} {k : String} {vis : List String}
    (hk : k ∈ m.map Prod.fst) (hkv : k ∉ vis) :
    unvisCount m (k :: vis) < unvisCount m vis :=
  length_filter_notmem_cons_lt (m.map Prod.fst) k vis hk hkv

/-- A rank function decreasing along dependency edges: the shallow form of
"the dependency relation recorded in the map is acyclic". -/
def rankOK (m : DepsMap) (rank : String → Nat) : Prop :=
  ∀ k v d, lookupKey m k = some v → d ∈ v → rank d < rank k

/-- The chain invariant the DFS maintains: no duplicates, every entry is a
map key, and every map-recorded dependency of the entry at position `i`
that is itself a map key already occurs among the first `i` entries. -/
def chainInv (m : DepsMap) (chain : List String) : Prop :=
  chain.Nodup ∧
  (∀ x ∈ chain, inMap m x = true) ∧
  (∀ i x v dk, chain.get? i = some x → lookupKey m x = some v →
    dk ∈ v → inMap m dk = true → dk ∈ chain.take i)

/-- Precondition of a `visit` call on target `k` in state
(visited, chain). -/
def visitPre (m : DepsMap) (rank : String → Nat) (k : String)
    (vis chain : List String) : Prop :=
  (∀ x ∈ chain, x ∈ vis) ∧
  (∀ g ∈ vis, g ∉ chain → rank k ≤ rank g) ∧
  chainInv m chain

/-- Postcondition of a `visit` call: the chain is only appended to, the
visited set only grows, the set of visited-but-not-yet-charted (gray) keys
does not grow and no gray key is appended, the chain invariant is
maintained, the chain stays inside the visited set, and a target that is a
map key ends up visited. -/
def visitPost (m : DepsMap) (k : String)
    (vis chain vis' chain' : List String) : Prop :=
  (∃ t, chain' = chain ++ t) ∧
  (∀ x ∈ vis, x ∈ vis') ∧
  (∀ x ∈ vis', x ∉ chain' → x ∈ vis ∧ x ∉ chain) ∧
  (∀ x ∈ vis, x ∉ chain → x ∉ chain') ∧
  chainInv m chain' ∧
  (∀ x ∈ chain', x ∈ vis') ∧
  (inMap m k = true → k ∈ vis')

theorem chainInv_push (m : DepsMap) (chain : List String) (k : String)
    (deps : List String) (hInv : chainInv m chain) (hkc : k ∉ chain)
    (hkm : lookupKey m k = some deps)
    (hdeps : ∀ dk ∈ deps, inMap m dk = true → dk ∈ chain) :
    chainInv m (chain ++ [k]) := by
  obtain ⟨hnd, hmem, hedge⟩ := hInv
  refine ⟨?_, ?_, ?_⟩
  · rw [List.nodup_append]
    exact ⟨hnd, List.nodup_singleton k,
      fun a ha hb => hkc ((List.mem_singleton.mp hb) ▸ ha)⟩
  · intro x hx
    rcases List.mem_append.mp hx with hx | hx
    · exact hmem x hx
    · rw [List.mem_singleton.mp hx]
      unfold inMap
      rw [hkm]
      rfl
  · intro i x v dk hget hlk hdk hdm
    by_cases hi : i < chain.length
    · rw [List.get?_append hi] at hget
      rw [List.take_append_of_le_length (Nat.le_of_lt hi)]
      exact hedge i x v dk hget hlk hdk hdm
    · by_cases hieq : i = chain.length
      · subst hieq
        rw [List.get?_concat_length] at hget
        have hxk : x = k := by
          exact (Option.some.injEq _ _ ▸ hget).symm ▸ rfl
        subst hxk
        rw [hkm] at hlk
        have hv : v = deps := by
          cases hlk
          rfl
        subst hv
        rw [List.take_left]
        exact hdeps dk hdk hdm
      · have hlen : (chain ++ [k]).length ≤ i := by
          rw [List.length_append, List.length_singleton]
          omega
        rw [List.get?_eq_none.mpr hlen] at hget
        exact absurd hget (by simp)

theorem foldVisit_spec (m : DepsMap) (rank : String → Nat)
    (hrank : rankOK m rank) (f : Nat) (k : String)
    (HF : ∀ k2 vis chain, unvisCount m vis < f →
      visitPre m rank k2 vis chain →
      visitPost m k2 vis chain (visitF m f k2 (vis, chain)).1
        (visitF m f k2 (vis, chain)).2) :
    ∀ ds : List String, (∀ d ∈ ds, rank d < rank k) →
    ∀ vis chain, unvisCount m vis < f →
      (∀ x ∈ chain, x ∈ vis) →
      (∀ g ∈ vis, g ∉ chain → rank k ≤ rank g) →
      chainInv m chain →
      (∃ t, (ds.foldl (fun acc d => visitF m f d acc) (vis, chain)).2 =
        chain ++ t) ∧
      (∀ x ∈ vis,
        x ∈ (ds.foldl (fun acc d => visitF m f d acc) (vis, chain)).1) ∧
      (∀ x ∈ (ds.foldl (fun acc d => visitF m f d acc) (vis, chain)).1,
        x ∉ (ds.foldl (fun acc d => visitF m f d acc) (vis, chain)).2 →
        x ∈ vis ∧ x ∉ chain) ∧
      (∀ x ∈ vis, x ∉ chain →
        x ∉ (ds.foldl (fun acc d => visitF m f d acc) (vis, chain)).2) ∧
      chainInv m (ds.foldl (fun acc d => visitF m f d acc) (vis, chain)).2 ∧
      (∀ x ∈ (ds.foldl (fun acc d => visitF m f d acc) (vis, chain)).2,
        x ∈ (ds.foldl (fun acc d => visitF m f d acc) (vis, chain)).1) ∧
      (∀ d ∈ ds, inMap m d = true →
        d ∈ (ds.foldl (fun acc d => visitF m f d acc) (vis, chain)).1) := by
  intro ds
  induction ds with
  | nil =>
    intro _ vis chain hf hP1 hP2 hInv
    exact ⟨⟨[], by simp⟩, fun x hx => hx, fun x hx hnc => ⟨hx, hnc⟩,
      fun x _ hnc => hnc, hInv, hP1, by simp⟩
  | cons d ds ih =>
    intro hds vis chain hf hP1 hP2 hInv
    have hd1 := HF d vis chain hf
      ⟨hP1, fun g hg hgc => Nat.le_of_lt
        (Nat.lt_of_lt_of_le (hds d (List.mem_cons_self d ds)) (hP2 g hg hgc)),
        hInv⟩
    obtain ⟨⟨t1, ht1⟩, hmono1, hgray1, hstay1, hInv1, hcv1, hin1⟩ := hd1
    rw [List.foldl_cons]
    have hpair : visitF m f d (vis, chain) =
        ((visitF m f d (vis, chain)).1, (visitF m f d (vis, chain)).2) := rfl
    rw [hpair]
    have hP1b : ∀ x ∈ (visitF m f d (vis, chain)).2,
        x ∈ (visitF m f d (vis, chain)).1 := hcv1
    have hP2b : ∀ g ∈ (visitF m f d (vis, chain)).1,
        g ∉ (visitF m f d (vis, chain)).2 → rank k ≤ rank g := by
      intro g hg hgc
      obtain ⟨hgv, hgcext⟩ := hgray1 g hg hgc
      exact hP2 g hgv hgcext
    have hfb : unvisCount m (visitF m f d (vis, chain)).1 < f :=
      Nat.lt_of_le_of_lt (unvisCount_mono hmono1) hf
    have hrest := ih (fun x hx => hds x (List.mem_cons_of_mem d hx))
      (visitF m f d (vis, chain)).1 (visitF m f d (vis, chain)).2
      hfb hP1b hP2b hInv1
    obtain ⟨⟨t2, ht2⟩, hmono2, hgray2, hstay2, hInv2, hcv2, hin2⟩ := hrest
    refine ⟨⟨t1 ++ t2, by rw [ht2, ht1, List.append_assoc]⟩,
      fun x hx => hmono2 x (hmono1 x hx), ?_, ?_, hInv2, hcv2, ?_⟩
    · intro x hx hnc
      obtain ⟨hxv1, hxc1⟩ := hgray2 x hx hnc
      exact hgray1 x hxv1 hxc1
    · intro x hxv hxc
      exact hstay2 x (hmono1 x hxv) (hstay1 x hxv hxc)
    · intro x hx hxm
      rcases List.mem_cons.mp hx with rfl | hxs
      · exact hmono2 x (hin1 hxm)
      · exact hin2 x hxs hxm

theorem visitF_spec (m : DepsMap) (rank : String → Nat)
    (hrank : rankOK m rank) :
    ∀ f k vis chain, unvisCount m vis < f →
      visitPre m rank k vis chain →
      visitPost m k vis chain (visitF m f k (vis, chain)).1
        (visitF m f k (vis, chain)).2 := by
  intro f
  induction f with
  | zero =>
    intro k vis chain hf
    exact absurd hf (by omega)
  | succ f ih =>
    intro k vis chain hf hpre
    obtain ⟨hP1, hP2, hInv⟩ := hpre
    by_cases hkv : k ∈ vis
    · have heq : visitF m (f + 1) k (vis, chain) = (vis, chain) := by
        rw [visitF, if_pos hkv]
      rw [heq]
      exact ⟨⟨[], by simp⟩, fun x hx => hx, fun x hx hnc => ⟨hx, hnc⟩,
        fun x _ hnc => hnc, hInv, hP1, fun _ => hkv⟩
    · cases hlk : lookupKey m k with
      | none =>
        have heq : visitF m (f + 1) k (vis, chain) = (vis, chain) := by
          rw [visitF, if_neg hkv, hlk]
        rw [heq]
        refine ⟨⟨[], by simp⟩, fun x hx => hx, fun x hx hnc => ⟨hx, hnc⟩,
          fun x _ hnc => hnc, hInv, hP1, ?_⟩
        intro hmap
        unfold inMap at hmap
        rw [hlk] at hmap
        exact absurd hmap (by simp)
      | some deps =>
        have heq : visitF m (f + 1) k (vis, chain) =
            ((deps.foldl (fun acc d => visitF m f d acc)
                (k :: vis, chain)).1,
              (deps.foldl (fun acc d => visitF m f d acc)
                (k :: vis, chain)).2 ++ [k]) := by
          rw [visitF, if_neg hkv, hlk]
        rw [heq]
        have hkm : k ∈ m.map Prod.fst :=
          lookup_isSome_mem (by rw [show m.lookup k = some deps from hlk]; rfl)
        have hfk : unvisCount m (k :: vis) < f := by
          have hlt := unvisCount_cons_lt hkm hkv
          omega
        have hkc : k ∉ chain := fun hc => hkv (hP1 k hc)
        have hP1f : ∀ x ∈ chain, x ∈ k :: vis :=
          fun x hx => List.mem_cons_of_mem k (hP1 x hx)
        have hP2f : ∀ g ∈ k :: vis, g ∉ chain → rank k ≤ rank g := by
          intro g hg hgc
          rcases List.mem_cons.mp hg with rfl | hgv
          · exact Nat.le_refl _
          · exact hP2 g hgv hgc
        have hds : ∀ d ∈ deps, rank d < rank k :=
          fun d hd => hrank k deps d hlk hd
        have hfold := foldVisit_spec m rank hrank f k ih deps hds
          (k :: vis) chain hfk hP1f hP2f hInv
        obtain ⟨⟨t1, ht1⟩, hmono1, hgray1, hstay1, hInv1, hcv1, hin1⟩ := hfold
        have hkc1 : k ∉ (deps.foldl (fun acc d => visitF m f d acc)
            (k :: vis, chain)).2 :=
          hstay1 k (List.mem_cons_self k vis) hkc
        have hdeps_in : ∀ dk ∈ deps, inMap m dk = true →
            dk ∈ (deps.foldl (fun acc d => visitF m f d acc)
              (k :: vis, chain)).2 := by
          intro dk hdk hdm
          have hdv := hin1 dk hdk hdm
          by_contra hdc
          obtain ⟨hdkv, hdkc⟩ := hgray1 dk hdv hdc
          rcases List.mem_cons.mp hdkv with rfl | hdkv2
          · exact absurd (hrank _ deps _ hlk hdk) (by omega)
          · have hge := hP2 dk hdkv2 hdkc
            have hlt := hrank k deps dk hlk hdk
            omega
        refine ⟨⟨t1 ++ [k], by rw [ht1, List.append_assoc]⟩, ?_, ?_, ?_,
          ?_, ?_, ?_⟩
        · intro x hx
          exact hmono1 x (List.mem_cons_of_mem k hx)
        · intro x hx hnc
          have hnc1 : x ∉ (deps.foldl (fun acc d => visitF m f d acc)
              (k :: vis, chain)).2 :=
            fun hc => hnc (List.mem_append.mpr (Or.inl hc))
          obtain ⟨hxv, hxc⟩ := hgray1 x hx hnc1
          rcases List.mem_cons.mp hxv with rfl | hxv2
          · exact absurd (List.mem_append.mpr (Or.inr (by simp))) hnc
          · exact ⟨hxv2, hxc⟩
        · intro x hxv hxc
          intro hc
          rcases List.mem_append.mp hc with hc | hc
          · exact hstay1 x (List.mem_cons_of_mem k hxv) hxc hc
          · rw [List.mem_singleton.mp hc] at hxv
            exact hkv hxv
        · exact chainInv_push m _ k deps hInv1 hkc1 hlk hdeps_in
        · intro x hx
          rcases List.mem_append.mp hx with hc | hc
          · exact hcv1 x hc
          · rw [List.mem_singleton.mp hc]
            exact hmono1 k (List.mem_cons_self k vis)
        · intro _
          exact hmono1 k (List.mem_cons_self k vis)

/-! ## Write-loop correctness -/

/-- The step rows of one name, in table order. -/
def stepsFor (s : RepoState) (name : String) : List SeqStep :=
  s.seq_steps.filter (fun st => st.name == name)

/-- The dependency rows of one name, in table order. -/
def depRowsFor (s : RepoState) (name : String) : List SeqDep :=
  s.seq_deps.filter (fun d => d.name == name)

theorem maxStep_eq (s : RepoState) (name : String) :
    maxStep s name = ((stepsFor s name).map SeqStep.step_number).max? := rfl

theorem max?_range (n : Nat) :
    (List.range n).max? = if n = 0 then none else some (n - 1) := by
  by_cases h : n = 0
  · subst h; rfl
  · rw [if_neg h]
    rw [List.max?_eq_some_iff]
    · refine ⟨List.mem_range.mpr (by omega), ?_⟩
      intro a ha
      have := List.mem_range.mp ha
      omega
    · exact fun a => le_refl a
    · exact fun a b => max_choice a b
    · exact fun a b c => max_le_iff

theorem maxStep_of_range {s : RepoState} {name : String} {n : Nat}
    (h : (stepsFor s name).map SeqStep.step_number = List.range n) :
    maxStep s name = if n = 0 then none else some (n - 1) := by
  rw [maxStep_eq, h, max?_range]

theorem addSequenceStep_next {s : RepoState} {name : String} {n : Nat}
    (h : (stepsFor s name).map SeqStep.step_number = List.range n)
    (k : String) (eds : List (Nat × String)) :
    (addSequenceStep s name k eds).1 = n := by
  show (match maxStep s name with
    | none => 0
    | some m => m + 1) = n
  rw [maxStep_of_range h]
  by_cases hn : n = 0
  · rw [if_pos hn]
    show (0 : Nat) = n
    omega
  · rw [if_neg hn]
    show n - 1 + 1 = n
    omega

theorem stepsFor_addSequenceStep (s : RepoState) (name k : String)
    (eds : List (Nat × String)) :
    stepsFor (addSequenceStep s name k eds).2 name =
      stepsFor s name ++ [⟨name, (addSequenceStep s name k eds).1, k⟩] := by
  have hseq : (addSequenceStep s name k eds).2.seq_steps =
      s.seq_steps ++ [⟨name, (addSequenceStep s name k eds).1, k⟩] := rfl
  unfold stepsFor
  rw [hseq, List.filter_append]
  congr 1
  rw [List.filter_cons_of_pos (by simp), List.filter_nil]

theorem seqDeps_addSequenceStep (s : RepoState) (name k : String)
    (eds : List (Nat × String)) :
    (addSequenceStep s name k eds).2.seq_deps =
      s.seq_deps ++ eds.map (fun e =>
        ⟨name, (addSequenceStep s name k eds).1, e.1, e.2⟩) := rfl

theorem depRowsFor_addSequenceStep (s : RepoState) (name k : String)
    (eds : List (Nat × String)) :
    depRowsFor (addSequenceStep s name k eds).2 name =
      depRowsFor s name ++ eds.map (fun e =>
        ⟨name, (addSequenceStep s name k eds).1, e.1, e.2⟩) := by
  unfold depRowsFor
  rw [seqDeps_addSequenceStep, List.filter_append]
  congr 1
  rw [List.filter_eq_self]
  intro a ha
  rcases List.mem_map.mp ha with ⟨e, _, rfl⟩
  simp

theorem stepDeps_addSequenceStep_ne (s : RepoState) (name k : String)
    (eds : List (Nat × String)) (i : Nat)
    (hi : i ≠ (addSequenceStep s name k eds).1) :
    stepDeps (addSequenceStep s name k eds).2 name i = stepDeps s name i := by
  unfold stepDeps
  rw [show (addSequenceStep s name k eds).2.seq_deps =
    s.seq_deps ++ eds.map (fun e =>
      ⟨name, (addSequenceStep s name k eds).1, e.1, e.2⟩) from rfl]
  rw [List.filter_append]
  have hnil : (eds.map (fun e =>
      (⟨name, (addSequenceStep s name k eds).1, e.1, e.2⟩ : SeqDep))).filter
      (fun d => d.name == name && d.step_number == i) = [] := by
    rw [List.filter_eq_nil]
    intro a ha
    rcases List.mem_map.mp ha with ⟨e, _, rfl⟩
    simp only [Bool.and_eq_true, beq_iff_eq, not_and]
    intro _
    exact fun h => hi h.symm
  rw [hnil, List.append_nil]

theorem stepDeps_addSequenceStep_self (s : RepoState) (name k : String)
    (eds : List (Nat × String))
    (hb : ∀ d ∈ s.seq_deps, d.name = name →
      d.step_number ≠ (addSequenceStep s name k eds).1) :
    stepDeps (addSequenceStep s name k eds).2 name
      (addSequenceStep s name k eds).1 = eds := by
  unfold stepDeps
  rw [show (addSequenceStep s name k eds).2.seq_deps =
    s.seq_deps ++ eds.map (fun e =>
      ⟨name, (addSequenceStep s name k eds).1, e.1, e.2⟩) from rfl]
  rw [List.filter_append]
  have hnil : s.seq_deps.filter
      (fun d => d.name == name &&
        d.step_number == (addSequenceStep s name k eds).1) = [] := by
    rw [List.filter_eq_nil]
    intro a ha
    simp only [Bool.and_eq_true, beq_iff_eq, not_and]
    exact fun h1 h2 => hb a ha h1 h2
  have hall : (eds.map (fun e =>
      (⟨name, (addSequenceStep s name k eds).1, e.1, e.2⟩ : SeqDep))).filter
      (fun d => d.name == name &&
        d.step_number == (addSequenceStep s name k eds).1) =
      eds.map (fun e =>
        (⟨name, (addSequenceStep s name k eds).1, e.1, e.2⟩ : SeqDep)) := by
    rw [List.filter_eq_self]
    intro a ha
    rcases List.mem_map.mp ha with ⟨e, _, rfl⟩
    simp
  rw [hnil, hall, List.nil_append, List.map_map]
  have : ((fun d : SeqDep => (d.dependency_step, d.dependency_type)) ∘
      (fun e : Nat × String =>
        (⟨name, (addSequenceStep s name k eds).1, e.1, e.2⟩ : SeqDep))) =
      id := by
    funext e
    rfl
  rw [this, List.map_id]

/-- The step rows the write loop appends: consecutive step numbers from
`n` paired with the chain keys. -/
def expectedRows (name : String) : Nat → List String → List SeqStep
  | _, [] => []
  | n, k :: rest => ⟨name, n, k⟩ :: expectedRows name (n + 1) rest

theorem expectedRows_map_step (name : String) :
    ∀ (l : List String) (n : Nat),
      (expectedRows name n l).map SeqStep.step_number =
        List.range' n l.length := by
  intro l
  induction l with
  | nil => intro n; rfl
  | cons k rest ih =>
    intro n
    rw [show expectedRows name n (k :: rest) =
      ⟨name, n, k⟩ :: expectedRows name (n + 1) rest from rfl]
    rw [List.map_cons, ih (n + 1)]
    rfl

theorem expectedRows_getElem? (name : String) :
    ∀ (l : List String) (n j : Nat),
      (expectedRows name n l).get? j =
        (l.get? j).map (fun k => ⟨name, n + j, k⟩) := by
  intro l
  induction l with
  | nil => intro n j; cases j <;> rfl
  | cons k rest ih =>
    intro n j
    cases j with
    | zero => rfl
    | succ j2 =>
      rw [show expectedRows name n (k :: rest) =
        ⟨name, n, k⟩ :: expectedRows name (n + 1) rest from rfl]
      rw [show ((⟨name, n, k⟩ : SeqStep) ::
        expectedRows name (n + 1) rest).get? (j2 + 1) =
        (expectedRows name (n + 1) rest).get? j2 from rfl]
      rw [show ((k :: rest).get? (j2 + 1)) = rest.get? j2 from rfl]
      rw [ih (n + 1) j2]
      have : n + 1 + j2 = n + (j2 + 1) := by omega
      rw [this]

/-- What the write loop does, starting from a state whose step rows for
the name are numbered exactly 0..n-1 and whose dependency rows for the
name all have step numbers below n: it appends one row per key with
consecutive numbers, each new step's dependency rows are exactly its
computed edges, rows of other names and earlier steps are untouched, and
every intermediate committed state holds a prefix of the final rows. -/
theorem writeStepsAux_spec (name : String) (m : DepsMap)
    (chain succKeys : List String) :
    ∀ (l : List String) (s0 : RepoState) (n : Nat),
      (stepsFor s0 name).map SeqStep.step_number = List.range n →
      (∀ d ∈ s0.seq_deps, d.name = name → d.step_number < n) →
      (stepsFor (writeStepsAux name m chain succKeys l s0).1 name =
        stepsFor s0 name ++ expectedRows name n l) ∧
      (∃ q, depRowsFor (writeStepsAux name m chain succKeys l s0).1 name =
        depRowsFor s0 name ++ q) ∧
      (∀ d ∈ (writeStepsAux name m chain succKeys l s0).1.seq_deps,
        d.name = name → d.step_number < n + l.length) ∧
      (∀ i, i < n →
        stepDeps (writeStepsAux name m chain succKeys l s0).1 name i =
          stepDeps s0 name i) ∧
      (∀ j x, l.get? j = some x →
        stepDeps (writeStepsAux name m chain succKeys l s0).1 name (n + j) =
          stepEdges m chain succKeys x) ∧
      (∀ st ∈ (writeStepsAux name m chain succKeys l s0).2,
        (∃ c, stepsFor st name =
          (stepsFor (writeStepsAux name m chain succKeys l s0).1 name).take
            c) ∧
        (∃ c2, depRowsFor st name =
          (depRowsFor (writeStepsAux name m chain succKeys l s0).1
            name).take c2)) := by
  intro l
  induction l with
  | nil =>
    intro s0 n h1 h2
    have h0 : writeStepsAux name m chain succKeys [] s0 = (s0, []) := rfl
    rw [h0]
    refine ⟨by rw [show expectedRows name n [] = [] from rfl]; simp,
      ⟨[], by simp⟩, ?_, fun i _ => rfl, ?_, ?_⟩
    · intro d hd hdn
      have := h2 d hd hdn
      simp only [List.length_nil]
      omega
    · intro j x hj
      exact absurd hj (by cases j <;> simp)
    · intro st hst
      exact absurd hst (by simp)
  | cons k rest ih =>
    intro s0 n h1 h2
    have hnext : (addSequenceStep s0 name k
        (stepEdges m chain succKeys k)).1 = n :=
      addSequenceStep_next h1 k _
    have hsteps2 : stepsFor (addSequenceStep s0 name k
        (stepEdges m chain succKeys k)).2 name =
        stepsFor s0 name ++ [⟨name, n, k⟩] := by
      rw [stepsFor_addSequenceStep, hnext]
    have h1b : (stepsFor (addSequenceStep s0 name k
        (stepEdges m chain succKeys k)).2 name).map SeqStep.step_number =
        List.range (n + 1) := by
      rw [hsteps2, List.map_append, h1, List.range_succ]
      rfl
    have h2b : ∀ d ∈ (addSequenceStep s0 name k
        (stepEdges m chain succKeys k)).2.seq_deps,
        d.name = name → d.step_number < n + 1 := by
      intro d hd hdn
      rw [seqDeps_addSequenceStep] at hd
      rcases List.mem_append.mp hd with hd | hd
      · have := h2 d hd hdn
        omega
      · rcases List.mem_map.mp hd with ⟨e, _, rfl⟩
        rw [show ((⟨name, (addSequenceStep s0 name k
          (stepEdges m chain succKeys k)).1, e.1, e.2⟩ :
            SeqDep)).step_number =
          (addSequenceStep s0 name k (stepEdges m chain succKeys k)).1
          from rfl, hnext]
        omega
    obtain ⟨w1, ⟨q2, w2⟩, w3, w4, w5, w6⟩ :=
      ih (addSequenceStep s0 name k (stepEdges m chain succKeys k)).2
        (n + 1) h1b h2b
    have hunf : writeStepsAux name m chain succKeys (k :: rest) s0 =
        ((writeStepsAux name m chain succKeys rest
          (addSequenceStep s0 name k (stepEdges m chain succKeys k)).2).1,
         (addSequenceStep s0 name k (stepEdges m chain succKeys k)).2 ::
          (writeStepsAux name m chain succKeys rest
            (addSequenceStep s0 name k
              (stepEdges m chain succKeys k)).2).2) := rfl
    rw [hunf]
    refine ⟨?_, ?_, ?_, ?_, ?_, ?_⟩
    · rw [w1, hsteps2, List.append_assoc]
      rfl
    · refine ⟨(stepEdges m chain succKeys k).map (fun e =>
        ⟨name, n, e.1, e.2⟩) ++ q2, ?_⟩
      rw [w2]
      rw [depRowsFor_addSequenceStep, hnext, List.append_assoc]
    · intro d hd hdn
      have := w3 d hd hdn
      simp only [List.length_cons]
      omega
    · intro i hi
      rw [w4 i (by omega)]
      rw [stepDeps_addSequenceStep_ne]
      rw [hnext]
      omega
    · intro j x hj
      cases j with
      | zero =>
        have hj2 : some k = some x := hj
        injection hj2 with hx
        subst hx
        rw [show n + 0 = n from by omega]
        rw [w4 n (by omega)]
        rw [← hnext]
        refine stepDeps_addSequenceStep_self s0 name k _ ?_
        intro d hd hdn
        rw [hnext]
        have := h2 d hd hdn
        omega
      | succ j2 =>
        have hj2 : rest.get? j2 = some x := hj
        rw [show n + (j2 + 1) = n + 1 + j2 from by omega]
        exact w5 j2 x hj2
    · intro st hst
      rcases List.mem_cons.mp hst with rfl | hst2
      · constructor
        · refine ⟨(stepsFor (addSequenceStep s0 name k
            (stepEdges m chain succKeys k)).2 name).length, ?_⟩
          rw [w1]
          exact (List.take_left _ _).symm
        · refine ⟨(depRowsFor (addSequenceStep s0 name k
            (stepEdges m chain succKeys k)).2 name).length, ?_⟩
          rw [w2]
          exact (List.take_left _ _).symm
      · exact w6 st hst2

/-! ## Assembly: from the recorder pipeline to the claims -/

/-- The schema's `FOREIGN KEY (name, step_number)` constraint on
`sequence_dependencies`: every dependency row references an existing step
row. -/
def seqDepsWF (s : RepoState) : Prop :=
  ∀ d ∈ s.seq_deps, ∃ st ∈ s.seq_steps,
    st.name = d.name ∧ st.step_number = d.step_number

instance (s : RepoState) : Decidable (seqDepsWF s) := by
  unfold seqDepsWF
  infer_instance

theorem cleanStart (s : RepoState) (name : String) (hwf : seqDepsWF s) :
    (stepsFor (if isSequence s name then deleteSequence s name else s)
      name).map SeqStep.step_number = List.range 0 ∧
    (∀ d ∈ (if isSequence s name then deleteSequence s name
        else s).seq_deps, d.name = name → d.step_number < 0) := by
  by_cases hseq : isSequence s name = true
  · rw [if_pos hseq]
    constructor
    · rw [show List.range 0 = [] from rfl]
      rw [List.map_eq_nil]
      unfold stepsFor deleteSequence
      rw [List.filter_filter, List.filter_eq_nil]
      intro a _
      simp only [Bool.and_eq_true, beq_iff_eq, decide_eq_true_eq, not_and]
      intro h1 h2
      exact h2 h1
    · intro d hd hdn
      unfold deleteSequence at hd
      have hd2 := List.of_mem_filter hd
      rw [decide_eq_true_eq] at hd2
      exact absurd hdn hd2
  · rw [if_neg hseq]
    have hnone : ∀ st ∈ s.seq_steps, st.name ≠ name := by
      intro st hst heq
      exact hseq (List.any_eq_true.mpr ⟨st, hst, by simp [heq]⟩)
    constructor
    · rw [show List.range 0 = [] from rfl]
      rw [List.map_eq_nil]
      unfold stepsFor
      rw [List.filter_eq_nil]
      intro a ha
      simp only [beq_iff_eq]
      exact hnone a ha
    · intro d hd hdn
      obtain ⟨st, hst, hstn, _⟩ := hwf d hd
      exact absurd (hstn.trans hdn) (hnone st hst)

theorem recordSequence_ok {s : RepoState} {current : String}
    {allDeps succKeys : List String} {name : String} {sf : RepoState}
    (h : recordSequence s current allDeps succKeys name = Except.ok sf) :
    sf = (writeStepsAux name (buildDepsMap s current allDeps)
      (recordChain (buildDepsMap s current allDeps) current) succKeys
      (recordChain (buildDepsMap s current allDeps) current)
      (if isSequence s name then deleteSequence s name else s)).1 := by
  unfold recordSequence at h
  cases hv : validateSequenceName name with
  | error e =>
    rw [hv] at h
    exact absurd h (by simp)
  | ok u =>
    rw [hv] at h
    simp only [Except.ok.injEq] at h
    exact h.symm

theorem recordSequenceCommits_eq {s : RepoState} {current : String}
    {allDeps succKeys : List String} {name : String} {sf : RepoState}
    (h : recordSequence s current allDeps succKeys name = Except.ok sf) :
    recordSequenceCommits s current allDeps succKeys name =
      (if isSequence s name then [deleteSequence s name] else []) ++
        (writeStepsAux name (buildDepsMap s current allDeps)
          (recordChain (buildDepsMap s current allDeps) current) succKeys
          (recordChain (buildDepsMap s current allDeps) current)
          (if isSequence s name then deleteSequence s name else s)).2 := by
  unfold recordSequence at h
  unfold recordSequenceCommits
  cases hv : validateSequenceName name with
  | error e =>
    rw [hv] at h
    exact absurd h (by simp)
  | ok u => rfl

theorem getLast?_mem_list {α : Type} {l : List α} {a : α}
    (h : l.getLast? = some a) : a ∈ l := by
  induction l with
  | nil => simp at h
  | cons x xs ih =>
    cases xs with
    | nil =>
      rw [show ([x] : List α).getLast? = some x from rfl] at h
      rw [List.mem_singleton]
      exact (Option.some_inj.mp h).symm
    | cons y ys =>
      rw [List.getLast?_cons_cons] at h
      exact List.mem_cons_of_mem _ (ih h)

theorem jobToStep_get? {chain : List String} {dk : String} {ds : Nat}
    (h : jobToStep chain dk = some ds) : chain.get? ds = some dk := by
  unfold jobToStep at h
  have hmem := getLast?_mem_list h
  rcases List.mem_filterMap.mp hmem with ⟨p, hp, hpe⟩
  by_cases hdk : p.2 == dk
  · rw [if_pos hdk] at hpe
    have hp1 : p.1 = ds := Option.some_inj.mp hpe
    have hp2 : p.2 = dk := beq_iff_eq.mp hdk
    have := List.mem_enum_iff_getElem?.mp hp
    rw [List.get?_eq_getElem?, ← hp1, ← hp2]
    exact this
  · rw [if_neg hdk] at hpe
    exact absurd hpe (by simp)

theorem jobToStep_mem {chain : List String} {dk : String} {ds : Nat}
    (h : jobToStep chain dk = some ds) : dk ∈ chain := by
  have := jobToStep_get? h
  exact List.get?_mem this

theorem expectedRows_step_ge (name : String) :
    ∀ (l : List String) (n : Nat) (x : SeqStep),
      x ∈ expectedRows name n l → n ≤ x.step_number := by
  intro l
  induction l with
  | nil => intro n x hx; exact absurd hx (by simp [expectedRows])
  | cons k rest ih =>
    intro n x hx
    rw [show expectedRows name n (k :: rest) =
      ⟨name, n, k⟩ :: expectedRows name (n + 1) rest from rfl] at hx
    rcases List.mem_cons.mp hx with rfl | hx2
    · exact Nat.le_refl _
    · have := ih (n + 1) x hx2
      omega

theorem expectedRows_sorted (name : String) :
    ∀ (l : List String) (n : Nat),
      List.Sorted (fun a b : SeqStep => a.step_number ≤ b.step_number)
        (expectedRows name n l) := by
  intro l
  induction l with
  | nil => intro n; exact List.sorted_nil
  | cons k rest ih =>
    intro n
    rw [show expectedRows name n (k :: rest) =
      ⟨name, n, k⟩ :: expectedRows name (n + 1) rest from rfl]
    rw [List.sorted_cons]
    refine ⟨?_, ih (n + 1)⟩
    intro b hb
    have := expectedRows_step_ge name rest (n + 1) b hb
    show n ≤ b.step_number
    omega

theorem getSequenceSteps_of_rows (sf : RepoState) (name : String)
    (chain : List String)
    (hrows : stepsFor sf name = expectedRows name 0 chain) :
    getSequenceSteps sf name = (expectedRows name 0 chain).map
      (fun st =>
        (st.step_number, st.job_key, stepDeps sf name st.step_number)) := by
  unfold getSequenceSteps
  rw [show sf.seq_steps.filter (fun st => st.name == name) =
    stepsFor sf name from rfl]
  rw [hrows]
  rw [List.Sorted.insertionSort_eq (expectedRows_sorted name chain 0)]

theorem lookup_insertKV_self (m : DepsMap) (k : String)
    (v : List String) : (insertKV m k v).lookup k = some v := by
  induction m with
  | nil => simp [insertKV, List.lookup]
  | cons p t ih =>
    unfold insertKV at ih ⊢
    by_cases hk : k = p.1
    · have hsome : (List.lookup k (p :: t)).isSome = true := by
        simp [List.lookup, hk]
      rw [if_pos hsome]
      simp only [List.map_cons]
      rw [if_pos hk.symm, List.lookup]
      simp
    · have hbeq : (k == p.1) = false := beq_false_of_ne hk
      have hlk : List.lookup k (p :: t) = List.lookup k t := by
        rw [List.lookup, hbeq]
      have hpk : ¬ p.1 = k := fun h => hk h.symm
      by_cases hsome : (List.lookup k (p :: t)).isSome = true
      · rw [if_pos hsome]
        have htsome : (List.lookup k t).isSome = true := by
          rw [← hlk]; exact hsome
        rw [if_pos htsome] at ih
        simp only [List.map_cons, if_neg hpk]
        rw [List.lookup, hbeq]
        exact ih
      · rw [if_neg hsome]
        have htnone : ¬ (List.lookup k t).isSome = true := by
          rw [← hlk]; exact hsome
        rw [if_neg htnone] at ih
        rw [List.cons_append, List.lookup, hbeq]
        exact ih

theorem lookup_map_replace_isSome (t : DepsMap) (k x : String)
    (v : List String) (h : (t.lookup x).isSome = true) :
    ((t.map (fun p => if p.1 = k then (k, v) else p)).lookup x).isSome =
      true := by
  induction t with
  | nil => simp [List.lookup] at h
  | cons p t ih =>
    rw [List.map_cons]
    by_cases hpk : p.1 = k
    · rw [if_pos hpk]
      by_cases hxk : x = k
      · rw [List.lookup, show (x == (k, v).1) = true from beq_iff_eq.mpr hxk]
        rfl
      · rw [List.lookup,
          show (x == (k, v).1) = false from beq_false_of_ne hxk]
        rw [List.lookup, show (x == p.1) = false from
          beq_false_of_ne (fun hh => hxk (hh.trans hpk))] at h
        exact ih h
    · rw [if_neg hpk]
      rw [List.lookup] at h
      rw [List.lookup]
      cases hbx : (x == p.1)
      · rw [hbx] at h
        exact ih h
      · rfl

theorem lookup_append_left_isSome (t rest : DepsMap) (x : String)
    (h : (t.lookup x).isSome = true) :
    ((t ++ rest).lookup x).isSome = true := by
  induction t with
  | nil => simp [List.lookup] at h
  | cons p t ih =>
    rw [List.cons_append, List.lookup]
    rw [List.lookup] at h
    cases hbx : (x == p.1)
    · rw [hbx] at h
      exact ih h
    · rfl

theorem lookup_insertKV_isSome (m : DepsMap) (k x : String)
    (v : List String) (h : (m.lookup x).isSome = true) :
    ((insertKV m k v).lookup x).isSome = true := by
  unfold insertKV
  by_cases hsome : (m.lookup k).isSome = true
  · rw [if_pos hsome]
    exact lookup_map_replace_isSome m k x v h
  · rw [if_neg hsome]
    exact lookup_append_left_isSome m [(k, v)] x h

theorem fetchTransitive_preserves_isSome (s : RepoState) :
    ∀ (f : Nat) (q : List String) (m : DepsMap) (x : String),
      ((m : DepsMap).lookup x).isSome = true →
      ((fetchTransitive s f q m).lookup x).isSome = true := by
  intro f
  induction f with
  | zero => intro q m x h; exact h
  | succ f ih =>
    intro q m x h
    cases q with
    | nil => exact h
    | cons k q2 =>
      rw [show fetchTransitive s (f + 1) (k :: q2) m =
        (if (lookupKey m k).isSome then fetchTransitive s f q2 m
         else match repoGet s k with
           | none => fetchTransitive s f q2 m
           | some j =>
             fetchTransitive s f
               (q2 ++ j.depends_on.filter (fun d =>
                 (lookupKey (insertKV m k j.depends_on) d).isNone))
               (insertKV m k j.depends_on)) from rfl]
      by_cases hk : (lookupKey m k).isSome = true
      · rw [if_pos hk]
        exact ih q2 m x h
      · rw [if_neg hk]
        cases hget : repoGet s k with
        | none => exact ih q2 m x h
        | some j =>
          exact ih _ _ x (lookup_insertKV_isSome m k x j.depends_on h)

theorem inMap_buildDepsMap_current (s : RepoState) (current : String)
    (allDeps : List String) :
    inMap (buildDepsMap s current allDeps) current = true := by
  unfold buildDepsMap inMap lookupKey
  apply fetchTransitive_preserves_isSome
  unfold seedMap
  rw [lookup_insertKV_self]
  rfl

theorem recordChain_spec (m : DepsMap) (current : String)
    (rank : String → Nat) (hrank : rankOK m rank) :
    chainInv m (recordChain m current) ∧
      (inMap m current = true → current ∈ recordChain m current) := by
  have hf : unvisCount m [] < m.length + 1 := by
    unfold unvisCount
    have h1 := List.length_filter_le
      (fun k => decide (k ∉ ([] : List String))) (m.map Prod.fst)
    rw [List.length_map] at h1
    omega
  have hpre : visitPre m rank current [] [] := by
    refine ⟨by simp, by simp, List.nodup_nil, by simp, ?_⟩
    intro i x v dk hg
    exact absurd hg (by simp)
  have h := visitF_spec m rank hrank (m.length + 1) current [] [] hf hpre
  obtain ⟨_, _, hgray, _, hinv, _, hvis⟩ := h
  refine ⟨hinv, ?_⟩
  intro hcur
  have hv := hvis hcur
  by_contra hc
  obtain ⟨hin, _⟩ := hgray current hv hc
  exact absurd hin (by simp)

/-- C5: every sequence the recorder produces from a store whose recorded
dependency relation is acyclic (witnessed by a rank function decreasing
along the fetched dependency edges, as holds for real stores where jobs
only depend on earlier jobs) has every dependency pair `(d, type)` of every
step `s` satisfying `d < s`: the post-order DFS appends each job's
dependencies to the chain before the job itself.  The store is assumed to
satisfy the schema's foreign-key constraint on dependency rows. -/
theorem sequence_dependency_steps_are_earlier
    (s : RepoState) (current : String) (allDeps succKeys : List String)
    (name : String) (sf : RepoState) (hwf : seqDepsWF s)
    (hrec : recordSequence s current allDeps succKeys name = Except.ok sf)
    (hdag : ∃ rank, rankOK (buildDepsMap s current allDeps) rank) :
    ∀ step ∈ getSequenceSteps sf name, ∀ e ∈ step.2.2, e.1 < step.1 := by
  obtain ⟨rank, hrank⟩ := hdag
  obtain ⟨hcinv, _⟩ :=
    recordChain_spec (buildDepsMap s current allDeps) current rank hrank
  obtain ⟨hr0, hd0⟩ := cleanStart s name hwf
  obtain ⟨w1, _, _, _, w5, _⟩ :=
    writeStepsAux_spec name (buildDepsMap s current allDeps)
      (recordChain (buildDepsMap s current allDeps) current) succKeys
      (recordChain (buildDepsMap s current allDeps) current)
      (if isSequence s name then deleteSequence s name else s) 0 hr0 hd0
  have hsf := recordSequence_ok hrec
  have hempty : stepsFor
      (if isSequence s name then deleteSequence s name else s) name = [] :=
    List.map_eq_nil.mp hr0
  have hrows : stepsFor sf name = expectedRows name 0
      (recordChain (buildDepsMap s current allDeps) current) := by
    rw [hsf, w1, hempty, List.nil_append]
  rw [getSequenceSteps_of_rows sf name _ hrows]
  intro step hstep e he
  rcases List.mem_map.mp hstep with ⟨st, hst, rfl⟩
  rcases List.mem_iff_get?.mp hst with ⟨j, hj⟩
  rw [expectedRows_getElem?] at hj
  rcases Option.map_eq_some'.mp hj with ⟨x, hx, hstx⟩
  have hstep_num : st.step_number = 0 + j := by rw [← hstx]
  have hdeps : stepDeps sf name st.step_number =
      stepEdges (buildDepsMap s current allDeps)
        (recordChain (buildDepsMap s current allDeps) current) succKeys x := by
    rw [hstep_num, hsf]
    exact w5 j x hx
  rw [hdeps] at he
  unfold stepEdges at he
  cases hlk : lookupKey (buildDepsMap s current allDeps) x with
  | none =>
    rw [hlk] at he
    exact absurd he (by simp)
  | some v =>
    rw [hlk] at he
    rcases List.mem_filterMap.mp he with ⟨dk, hdkv, hdke⟩
    cases hjs : jobToStep
        (recordChain (buildDepsMap s current allDeps) current) dk with
    | none =>
      rw [hjs] at hdke
      exact absurd hdke (by simp)
    | some ds =>
      rw [hjs] at hdke
      have he1 : e.1 = ds := by
        have := Option.some_inj.mp hdke
        rw [← this]
      have hdkc : dk ∈ recordChain (buildDepsMap s current allDeps)
          current := jobToStep_mem hjs
      have hdkm : inMap (buildDepsMap s current allDeps) dk = true :=
        hcinv.2.1 dk hdkc
      have htake : dk ∈ (recordChain (buildDepsMap s current allDeps)
          current).take j := by
        have := hcinv.2.2 j x v dk hx hlk hdkv hdkm
        exact this
      rcases List.mem_iff_get?.mp htake with ⟨j2, hj2⟩
      have hj2lt : j2 < j := by
        have hlen := List.get?_eq_some.mp hj2
        have := hlen.1
        have hle := List.length_take_le j
          (recordChain (buildDepsMap s current allDeps) current)
        omega
      have hj2chain : (recordChain (buildDepsMap s current allDeps)
          current).get? j2 = some dk := by
        rw [← List.get?_take hj2lt]
        exact hj2
      have hds := jobToStep_get? hjs
      have hdslen : ds < (recordChain (buildDepsMap s current allDeps)
          current).length := (List.get?_eq_some.mp hds).1
      have hds_eq : ds = j2 :=
        List.get?_inj hdslen hcinv.1 (hds.trans hj2chain.symm)
      rw [hstep_num, he1, hds_eq]
      omega

/-- A store with one completed job "A" and no sequences, used to
instantiate the recorder theorems on the chain "B depends on A". -/
def dagJobA : Job :=
  { key := "A"
    uidx := 0
    stop_time := some 1
    status := JobStatus.completed
    rc := some 0 }

def dagStore : RepoState :=
  { jobs := [("A", dagJobA)] }

theorem rankOK_pairAB :
    rankOK [("A", []), ("B", ["A"])]
      (fun x => if x = "B" then 1 else 0) := by
  intro k v d hk hd
  unfold lookupKey at hk
  rw [List.lookup] at hk
  cases hA : (k == "A")
  · rw [hA] at hk
    rw [List.lookup] at hk
    cases hB : (k == "B")
    · rw [hB] at hk
      exact absurd hk (by simp [List.lookup])
    · rw [hB] at hk
      have hv : v = ["A"] := (Option.some_inj.mp hk).symm
      have hkB : k = "B" := beq_iff_eq.mp hB
      have hdA : d = "A" := by
        rw [hv] at hd
        exact List.mem_singleton.mp hd
      rw [hkB, hdA]
      decide
  · rw [hA] at hk
    have hv : v = [] := (Option.some_inj.mp hk).symm
    rw [hv] at hd
    exact absurd hd (by simp)

theorem rankOK_dagStore :
    rankOK (buildDepsMap dagStore "B" ["A"])
      (fun x => if x = "B" then 1 else 0) := by
  have hm : buildDepsMap dagStore "B" ["A"] = [("A", []), ("B", ["A"])] :=
    by decide
  rw [hm]
  exact rankOK_pairAB

/-- Witness for C5: recording "B depends (success) on A" on `dagStore`
produces a sequence whose only edge points from step 1 back to step 0. -/
theorem sequence_dependency_steps_are_earlier_witness :
    ∃ sf, recordSequence dagStore "B" ["A"] ["A"] "seq2" = Except.ok sf ∧
      ∀ step ∈ getSequenceSteps sf "seq2", ∀ e ∈ step.2.2,
        e.1 < step.1 := by
  refine ⟨_, rfl, ?_⟩
  exact sequence_dependency_steps_are_earlier dagStore "B" ["A"] ["A"]
    "seq2" _ (by decide) rfl
    ⟨fun x => if x = "B" then 1 else 0, rankOK_dagStore⟩

/-- A pre-existing one-step sequence "seq" whose job key is "old". -/
def cexStep : SeqStep :=
  { name := "seq"
    step_number := 0
    job_key := "old" }

/-- A store that already has a recorded sequence "seq" (one step) and one
completed job "A"; re-recording "seq" over it exhibits the intermediate
commit states. -/
def cexStore : RepoState :=
  { jobs := [("A", dagJobA)]
    seq_steps := [cexStep] }

theorem rankOK_cexStore :
    rankOK (buildDepsMap cexStore "B" ["A"])
      (fun x => if x = "B" then 1 else 0) := by
  have hm : buildDepsMap cexStore "B" ["A"] = [("A", []), ("B", ["A"])] :=
    by decide
  rw [hm]
  exact rankOK_pairAB

/-- C4 counterexample: re-recording the sequence "seq" (which has one
recorded step) produces a final state with two steps, yet one of the
commit-boundary states other connections can observe — the state right
after the `delete_sequence` commit — shows the name with zero steps:
neither the old nor the new sequence, so the replacement is not
all-or-nothing from a reader's point of view. -/
theorem record_sequence_intermediate_state_observable_cex :
    ∃ sf, recordSequence cexStore "B" ["A"] ["A"] "seq" = Except.ok sf ∧
      (getSequenceSteps cexStore "seq").length = 1 ∧
      (getSequenceSteps sf "seq").length = 2 ∧
      ∃ st ∈ recordSequenceCommits cexStore "B" ["A"] ["A"] "seq",
        (getSequenceSteps st "seq").length = 0 := by
  refine ⟨_, rfl, ?_⟩
  decide

/-- C4 (amended): recording a sequence under an existing name first
deletes the old rows and then writes the new steps, and afterwards
`list_sequences` contains exactly one entry for the name; but the write is
not a single all-or-nothing unit: `delete_sequence` and every
`add_sequence_step` each commit separately, so a reader can observe
intermediate states.  Every observable intermediate state shows, for the
name, a prefix of the final step rows and a prefix of the final dependency
rows (never a mixture of old and new rows). -/
theorem record_sequence_replace_commits_are_prefixes
    (s : RepoState) (current : String) (allDeps succKeys : List String)
    (name : String) (sf : RepoState) (hwf : seqDepsWF s)
    (hrec : recordSequence s current allDeps succKeys name = Except.ok sf)
    (hdag : ∃ rank, rankOK (buildDepsMap s current allDeps) rank) :
    (listSequences sf).count name = 1 ∧
    ∀ st ∈ recordSequenceCommits s current allDeps succKeys name,
      (∃ c, stepsFor st name = (stepsFor sf name).take c) ∧
      (∃ c2, depRowsFor st name = (depRowsFor sf name).take c2) := by
  obtain ⟨rank, hrank⟩ := hdag
  have hchain := recordChain_spec (buildDepsMap s current allDeps)
    current rank hrank
  have hcur : current ∈ recordChain (buildDepsMap s current allDeps)
      current :=
    hchain.2 (inMap_buildDepsMap_current s current allDeps)
  obtain ⟨hr0, hd0⟩ := cleanStart s name hwf
  obtain ⟨w1, _, _, _, _, w6⟩ :=
    writeStepsAux_spec name (buildDepsMap s current allDeps)
      (recordChain (buildDepsMap s current allDeps) current) succKeys
      (recordChain (buildDepsMap s current allDeps) current)
      (if isSequence s name then deleteSequence s name else s) 0 hr0 hd0
  have hsf := recordSequence_ok hrec
  have hempty : stepsFor
      (if isSequence s name then deleteSequence s name else s) name = [] :=
    List.map_eq_nil.mp hr0
  have hdempty : depRowsFor
      (if isSequence s name then deleteSequence s name else s) name = [] := by
    unfold depRowsFor
    rw [List.filter_eq_nil]
    intro d hd
    simp only [beq_iff_eq, decide_eq_true_eq]
    intro hdn
    exact absurd (hd0 d hd hdn) (by omega)
  have hrows : stepsFor sf name = expectedRows name 0
      (recordChain (buildDepsMap s current allDeps) current) := by
    rw [hsf, w1, hempty, List.nil_append]
  constructor
  · have hperm := List.perm_insertionSort (fun a b => a ≤ b)
      ((sf.seq_steps.map SeqStep.name).dedup)
    rw [listSequences, hperm.count_eq]
    apply List.count_eq_one_of_mem (List.nodup_dedup _)
    rw [List.mem_dedup]
    cases hc : recordChain (buildDepsMap s current allDeps) current with
    | nil => rw [hc] at hcur; exact absurd hcur (by simp)
    | cons c rest =>
      rw [hc] at hrows
      have hmem : (⟨name, 0, c⟩ : SeqStep) ∈ stepsFor sf name := by
        rw [hrows]
        exact List.mem_cons_self _ _
      have hmem2 : (⟨name, 0, c⟩ : SeqStep) ∈ sf.seq_steps :=
        List.mem_of_mem_filter hmem
      exact List.mem_map_of_mem SeqStep.name hmem2
  · intro st hst
    rw [recordSequenceCommits_eq hrec] at hst
    rcases List.mem_append.mp hst with hdel | hws
    · by_cases hseq : isSequence s name = true
      · rw [if_pos hseq, List.mem_singleton] at hdel
        subst hdel
        rw [if_pos hseq] at hempty hdempty
        constructor
        · exact ⟨0, by rw [hempty, List.take_zero]⟩
        · exact ⟨0, by rw [hdempty, List.take_zero]⟩
      · rw [if_neg hseq] at hdel
        exact absurd hdel (by simp)
    · obtain ⟨hc1, hc2⟩ := w6 st hws
      rw [← hsf] at hc1 hc2
      exact ⟨hc1, hc2⟩

/-- Witness for the amended C4 theorem: the concrete re-recording over
`cexStore`, with the explicit rank function certifying acyclicity. -/
theorem record_sequence_replace_commits_are_prefixes_witness :
    ∃ sf, recordSequence cexStore "B" ["A"] ["A"] "seq" = Except.ok sf ∧
      (listSequences sf).count "seq" = 1 ∧
      ∀ st ∈ recordSequenceCommits cexStore "B" ["A"] ["A"] "seq",
        (∃ c, stepsFor st "seq" = (stepsFor sf "seq").take c) ∧
        (∃ c2, depRowsFor st "seq" = (depRowsFor sf "seq").take c2) := by
  refine ⟨_, rfl, ?_⟩
  exact record_sequence_replace_commits_are_prefixes cexStore "B" ["A"]
    ["A"] "seq" _ (by decide) rfl
    ⟨fun x => if x = "B" then 1 else 0, rankOK_cexStore⟩

end Jobrunner
